import Mathlib

/-!
# Verification of the `shopsite-aa` deserializer

A shallow embedding of the core decoding engine of the `shopsite-aa`
crate: the byte-level line scanner with position tracking
(`src/de/parser_io.rs`), the Windows-1252 text decoder, the value
decoding protocol (`src/deser_value.rs`) and the top-level record
protocol (`src/deser_toplevel.rs`).

Bytes are modelled as `Nat` (the source reads `u8` values, which are
always in `0..=255`; states built from real input only ever hold such
values, and no arithmetic in the scanner can overflow a byte).  The
input source (`R: BufRead`) is modelled as the list of bytes it will
deliver; I/O errors and `Interrupted` retries are outside the model
(`read_byte_raw` in the source loops until it gets a byte, end of
input, or a hard error).  Loops in the source (`fill_buf`, the
line-skipping loop of `next_key_seed`, and the driver loops of serde
visitors) are modelled with an explicit fuel parameter so that every
definition is executable; each such loop consumes at least one input
byte per iteration, so any fuel exceeding the number of remaining
input bytes gives the loop's true (terminating) behaviour, and the
wrappers pass such a fuel.
-/

/-- Position in an input file (`src/position.rs`).  The `file` field of the
source is an `Option<Rc<Path>>` used only for error display; it is not
modelled. -/
structure Position where
  line : Nat
  column : Nat
deriving Repr, DecidableEq

/-- The deserializer state (`struct Deserializer` in `src/de.rs`), with the
reader replaced by the list of bytes it has yet to deliver. -/
structure DeState where
  /-- Bytes the reader has yet to deliver. -/
  input : List Nat
  /-- `buf_b`: buffer of raw bytes read for the current token. -/
  buf_b : List Nat
  /-- `pos`: where in the file the parser is currently looking. -/
  pos : Position
  /-- `last_byte`: the last byte that was read. -/
  last_byte : Nat
  /-- `peeked_byte`: the next byte that will be read, if already pulled. -/
  peeked_byte : Option Nat
  /-- `reached_eof`: set upon reaching end-of-file. -/
  reached_eof : Bool
deriving Repr, DecidableEq

/-- Initial deserializer state over a byte buffer (`Deserializer::new`). -/
def DeState.mk0 (input : List Nat) : DeState :=
  { input := input
    buf_b := []
    pos := { line := 1, column := 1 }
    last_byte := 0
    peeked_byte := none
    reached_eof := false }

/-- Number of bytes still obtainable from the reader and the peek slot;
used as the fuel bound for the source's loops. -/
def DeState.meas (s : DeState) : Nat :=
  s.input.length + (if s.peeked_byte.isSome then 1 else 0)

/-- `read_byte_raw` (`parser_io.rs`): read one byte from the reader, or
`none` at end of input. -/
def read_byte_raw (s : DeState) : Option Nat × DeState :=
  match s.input with
  | [] => (none, s)
  | b :: rest => (some b, { s with input := rest })

/-- `read_byte` (`parser_io.rs` lines 29-86): read the next byte of input,
consuming a pending peeked byte first, and keep track of line and column
numbers. -/
def read_byte (s : DeState) : Option Nat × DeState :=
  if s.reached_eof then
    (none, s)
  else
    let (read_result, s1) :=
      match s.peeked_byte with
      | some peeked_byte => (some peeked_byte, { s with peeked_byte := none })
      | none => read_byte_raw s
    match read_result with
    | some byte =>
      let pos :=
        if s1.last_byte = 13 ∧ byte = 10 then
          -- Don't increment the line number for the LF in a CR+LF pair.
          s1.pos
        else if byte = 13 ∨ byte = 10 then
          -- New line.
          { line := s1.pos.line + 1, column := 1 }
        else if byte = 9 then
          -- Tabs increment the column number by 8 instead of 1.
          { s1.pos with column := s1.pos.column + 8 }
        else if byte ≤ 31 ∨ byte = 127 then
          -- Control codes and DEL have zero width.
          s1.pos
        else
          -- Everything else increments the column number by 1.
          { s1.pos with column := s1.pos.column + 1 }
      (some byte, { s1 with pos := pos, last_byte := byte })
    | none =>
      (none, { s1 with reached_eof := true, last_byte := 0 })

/-- `peek_byte` (`parser_io.rs` lines 89-104): what the next `read_byte`
will yield, without moving the cursor. -/
def peek_byte (s : DeState) : Option Nat × DeState :=
  if s.reached_eof then
    (none, s)
  else
    match s.peeked_byte with
    | some peeked_byte => (some peeked_byte, s)
    | none =>
      let (byte_opt, s1) := read_byte_raw s
      (byte_opt, { s1 with peeked_byte := byte_opt })

/-- Outcome of `fill_buf` (`enum FillBufResult` in `parser_io.rs`). -/
inductive FillBufResult where
  | FoundDelim (b : Nat)
  | FoundEol
  | FoundEof
deriving Repr, DecidableEq

/-- `u8::is_ascii_whitespace` from the Rust core library: space,
horizontal tab, line feed, form feed, carriage return. -/
def is_ascii_ws (b : Nat) : Bool :=
  b = 32 || b = 9 || b = 10 || b = 12 || b = 13

/-- The loop body of `fill_buf` (`parser_io.rs` lines 157-215), with
`started_at_start_of_line`, `in_comment` and `seen_non_whitespace`
made explicit parameters and an explicit fuel.  The loop consumes one
byte of `DeState.meas` per iteration, so any `fuel > s.meas` yields the
loop's true behaviour (`fill_buf_go_fuel` below). -/
def fill_buf_go (delimiters : List Nat) (started : Bool) (in_comment : Bool)
    (seen_nw : Bool) (fuel : Nat) (s : DeState) : FillBufResult × DeState :=
  match fuel with
  | 0 => (.FoundEof, s)
  | fuel + 1 =>
    let prev_column := s.pos.column
    match read_byte s with
    | (some byte, s1) =>
      if byte = 35 ∧ (prev_column = 1 ∨ (started = true ∧ seen_nw = false)) then
        -- This is the beginning of a comment line.  Clear the buffer, in
        -- case the comment begins after some whitespace.
        fill_buf_go delimiters started true seen_nw fuel { s1 with buf_b := [] }
      else if in_comment = true ∧ byte ≠ 13 ∧ byte ≠ 10 then
        -- Still inside a comment line.  Skip this byte.
        fill_buf_go delimiters started in_comment seen_nw fuel s1
      else if byte = 13 ∨ byte = 10 then
        if in_comment = true then
          -- End of a comment line.
          fill_buf_go delimiters started false seen_nw fuel s1
        else if prev_column = 1 then
          -- End of an empty line or part of a CR+LF sequence: ignore it.
          fill_buf_go delimiters started in_comment seen_nw fuel s1
        else if started = true ∧ seen_nw = false then
          -- End of a line containing only whitespace: clear the buffer
          -- and skip to the next line.
          fill_buf_go delimiters started in_comment seen_nw fuel { s1 with buf_b := [] }
        else
          (.FoundEol, s1)
      else if byte ∈ delimiters then
        (.FoundDelim byte, s1)
      else
        fill_buf_go delimiters started in_comment
          (seen_nw || !is_ascii_ws byte) fuel { s1 with buf_b := s1.buf_b ++ [byte] }
    | (none, s1) =>
      -- End of the file.  If we never saw any non-whitespace, the last
      -- line is effectively blank, so clear the buffer.
      if seen_nw = false then
        (.FoundEof, { s1 with buf_b := [] })
      else
        (.FoundEof, s1)

/-- `fill_buf` (`parser_io.rs` lines 148-216): clear `buf_b`, then fill it
with input until one of the `delimiters`, the end of the line, or the end
of the file. -/
def fill_buf (delimiters : List Nat) (s : DeState) : FillBufResult × DeState :=
  fill_buf_go delimiters (decide (s.pos.column = 1)) false false
    (s.meas + 1) { s with buf_b := [] }

/-- The Windows-1252 single-byte code page, as implemented by the
`encoding` crate used in `parser_io.rs` (the WHATWG `index-windows-1252`
table): bytes `0x00..=0x7F` map to the same code point, the `0x80..=0x9F`
range maps per the table (every entry is defined, including the five
C1 slots `0x81`, `0x8D`, `0x8F`, `0x90`, `0x9D`), and `0xA0..=0xFF`
map to the same code point.  Returns `none` for a byte with no mapping;
for this table that never happens for a byte value `0..=255`, which is
exactly what the crate's unit test checks. -/
def win1252_byte (b : Nat) : Option Char :=
  if b < 128 then some (Char.ofNat b)
  else if 160 ≤ b ∧ b ≤ 255 then some (Char.ofNat b)
  else
    match b with
    | 128 => some (Char.ofNat 0x20AC)
    | 129 => some (Char.ofNat 0x81)
    | 130 => some (Char.ofNat 0x201A)
    | 131 => some (Char.ofNat 0x192)
    | 132 => some (Char.ofNat 0x201E)
    | 133 => some (Char.ofNat 0x2026)
    | 134 => some (Char.ofNat 0x2020)
    | 135 => some (Char.ofNat 0x2021)
    | 136 => some (Char.ofNat 0x2C6)
    | 137 => some (Char.ofNat 0x2030)
    | 138 => some (Char.ofNat 0x160)
    | 139 => some (Char.ofNat 0x2039)
    | 140 => some (Char.ofNat 0x152)
    | 141 => some (Char.ofNat 0x8D)
    | 142 => some (Char.ofNat 0x17D)
    | 143 => some (Char.ofNat 0x8F)
    | 144 => some (Char.ofNat 0x90)
    | 145 => some (Char.ofNat 0x2018)
    | 146 => some (Char.ofNat 0x2019)
    | 147 => some (Char.ofNat 0x201C)
    | 148 => some (Char.ofNat 0x201D)
    | 149 => some (Char.ofNat 0x2022)
    | 150 => some (Char.ofNat 0x2013)
    | 151 => some (Char.ofNat 0x2014)
    | 152 => some (Char.ofNat 0x2DC)
    | 153 => some (Char.ofNat 0x2122)
    | 154 => some (Char.ofNat 0x161)
    | 155 => some (Char.ofNat 0x203A)
    | 156 => some (Char.ofNat 0x153)
    | 157 => some (Char.ofNat 0x9D)
    | 158 => some (Char.ofNat 0x17E)
    | 159 => some (Char.ofNat 0x178)
    | _ => none

/-- Decoding a whole byte buffer through the fallible interface of the
text decoder: fails iff some byte has no mapping.  (`decode_buf` /
`decode_buf_owned` in `parser_io.rs` call this with `DecoderTrap::Replace`
and `unwrap()` the result; the `unwrap` is the failure branch the
source asserts to be unreachable.) -/
def win1252_decode (bytes : List Nat) : Option String :=
  match bytes with
  | [] => some ""
  | b :: rest =>
    match win1252_byte b, win1252_decode rest with
    | some c, some str => some (String.mk (c :: str.data))
    | _, _ => none

/-- Total decoding with `DecoderTrap::Replace`: an unmappable byte becomes
the replacement character U+FFFD.  For Windows-1252 the replacement case
is unreachable. -/
def decode_list (bytes : List Nat) : String :=
  String.mk (bytes.map (fun b => (win1252_byte b).getD (Char.ofNat 0xFFFD)))

/-- `decode_buf_all` / `decode_buf_all_owned` (`parser_io.rs`): decode all
of `buf_b`. -/
def decode_buf_all (s : DeState) : String :=
  decode_list s.buf_b

/-- The error type (`src/de/error.rs`), restricted to the parse-time
variants the value protocol can raise.  The `error` payloads
(`ParseBoolError` etc.) are represented by the offending token text. -/
inductive AaError where
  | invalidBool (text : String) (pos : Position)
  | invalidInt (text : String) (pos : Position)
  | invalidFloat (text : String) (pos : Position)
deriving Repr, DecidableEq

/-- `bool::from_str` from the Rust core library: exactly `"true"` or
`"false"`. -/
def rust_parse_bool (s : String) : Option Bool :=
  if s = "true" then some true
  else if s = "false" then some false
  else none

/-- Digits-only run to a number, `none` if empty or a non-digit occurs. -/
def digits_to_nat (cs : List Char) : Option Nat :=
  match cs with
  | [] => none
  | _ =>
    if cs.all (fun c => decide ('0' ≤ c) && decide (c ≤ '9')) then
      some (cs.foldl (fun acc c => acc * 10 + (c.toNat - 48)) 0)
    else none

/-- `u8::from_str` from the Rust core library: an optional `+` sign
followed by one or more ASCII digits.  A `-` sign is rejected outright
(`from_str_radix` strips a leading `-` for signed integer types only, so
for `u8` the `-` is left in place and fails the digit check, yielding
`InvalidDigit` -- even for `"-0"`); values above `u8::MAX` overflow. -/
def rust_parse_u8 (s : String) : Option Nat :=
  let digits :=
    match s.data with
    | '+' :: rest => rest
    | cs => cs
  match digits_to_nat digits with
  | none => none
  | some n => if n ≤ 255 then some n else none

/-- The grammar accepted by `f64::from_str` from the Rust core library:
optional sign, then (case-insensitively) `inf`, `infinity`, `nan`, or a
decimal significand (`Digits`, `Digits.`, `Digits.Digits`, or `.Digits`)
with an optional exponent `(e|E) sign? Digits`.  The parsed value is
represented by the accepted text itself: no claim in this development
depends on float arithmetic, only on which token texts parse. -/
def rust_f64_grammar (s : String) : Bool :=
  let isDigit := fun (c : Char) => decide ('0' ≤ c) && decide (c ≤ '9')
  let lower := s.data.map Char.toLower
  let afterSign :=
    match lower with
    | '+' :: rest => rest
    | '-' :: rest => rest
    | cs => cs
  if afterSign = ['i', 'n', 'f'] then true
  else if afterSign = ['i', 'n', 'f', 'i', 'n', 'i', 't', 'y'] then true
  else if afterSign = ['n', 'a', 'n'] then true
  else
    let intPart := afterSign.takeWhile isDigit
    let afterInt := afterSign.dropWhile isDigit
    let fracOk : Bool :=
      match afterInt with
      | '.' :: rest => !intPart.isEmpty || !(rest.takeWhile isDigit).isEmpty
      | _ => !intPart.isEmpty
    let afterFrac :=
      match afterInt with
      | '.' :: rest => rest.dropWhile isDigit
      | cs => cs
    if fracOk then
      match afterFrac with
      | [] => true
      | 'e' :: rest =>
        let expDigits :=
          match rest with
          | '+' :: rest2 => rest2
          | '-' :: rest2 => rest2
          | cs => cs
        !expDigits.isEmpty && expDigits.all isDigit
      | _ => false
    else false

/-- `f64::from_str`, with the parsed float represented by its accepted
token text (see `rust_f64_grammar`). -/
def rust_parse_f64 (s : String) : Option String :=
  if rust_f64_grammar s then some s else none

/-- The delimiter set used by `AaValueDeserializer::fill_buf_auto`
(`deser_value.rs` lines 59-67): `|` when inside a sequence, empty
otherwise. -/
def auto_delims (inside_seq : Bool) : List Nat :=
  if inside_seq then [124] else []

/-- `fill_buf_auto` (`deser_value.rs`): `fill_buf` with the delimiters
determined by `inside_seq`. -/
def fill_buf_auto (inside_seq : Bool) (s : DeState) : FillBufResult × DeState :=
  fill_buf (auto_delims inside_seq) s

/-- `AaValueDeserializer::deserialize_str` / `deserialize_string`
(`deser_value.rs` lines 80-93): fill the token buffer, decode it, and
hand the text to the visitor. -/
def deserialize_str (inside_seq : Bool) (s : DeState) : String × DeState :=
  let (_, s1) := fill_buf_auto inside_seq s
  (decode_buf_all s1, s1)

/-- `AaValueDeserializer::deserialize_bytes` (`deser_value.rs` lines
74-78): fill the token buffer and hand over the raw bytes. -/
def deserialize_bytes (inside_seq : Bool) (s : DeState) : List Nat × DeState :=
  let (_, s1) := fill_buf_auto inside_seq s
  (s1.buf_b, s1)

/-- `deserialize_bool` (`deser_value.rs`, `deserialize_with_from_str`
macro, lines 26-38 and 186): capture the position, fill the token
buffer, decode it, parse the text; a parse failure produces
`Error::InvalidBool` carrying the captured position. -/
def deserialize_bool (inside_seq : Bool) (s : DeState) :
    Except AaError Bool × DeState :=
  let start_pos := s.pos
  let (_, s1) := fill_buf_auto inside_seq s
  let text := decode_buf_all s1
  match rust_parse_bool text with
  | some b => (.ok b, s1)
  | none => (.error (.invalidBool text start_pos), s1)

/-- `deserialize_u8` (`deser_value.rs`, `deserialize_with_from_str`
macro, line 192): as `deserialize_bool`, failing with
`Error::InvalidInt`. -/
def deserialize_u8 (inside_seq : Bool) (s : DeState) :
    Except AaError Nat × DeState :=
  let start_pos := s.pos
  let (_, s1) := fill_buf_auto inside_seq s
  let text := decode_buf_all s1
  match rust_parse_u8 text with
  | some n => (.ok n, s1)
  | none => (.error (.invalidInt text start_pos), s1)

/-- `deserialize_f64` (`deser_value.rs`, `deserialize_with_from_str`
macro, line 198): as `deserialize_bool`, failing with
`Error::InvalidFloat`. -/
def deserialize_f64 (inside_seq : Bool) (s : DeState) :
    Except AaError String × DeState :=
  let start_pos := s.pos
  let (_, s1) := fill_buf_auto inside_seq s
  let text := decode_buf_all s1
  match rust_parse_f64 text with
  | some v => (.ok v, s1)
  | none => (.error (.invalidFloat text start_pos), s1)

/-- `deserialize_option` (`deser_value.rs` lines 155-168), generic over
the decoding `k` that `visitor.visit_some(self)` performs on the same
deserializer (hence from the same cursor state): peek the next byte; if
it is absent, a carriage-return, or a line-feed, that is a `None`; any
other byte is a `Some` whose content is decoded by continuing with the
same cursor. -/
def deserialize_option {α : Type} (k : DeState → α × DeState) (s : DeState) :
    Option α × DeState :=
  match peek_byte s with
  | (none, s1) => (none, s1)
  | (some b, s1) =>
    if b = 13 ∨ b = 10 then
      (none, s1)
    else
      let (v, s2) := k s1
      (some v, s2)

/-- `deserialize_option` with the payload requested as a string, the
representative concrete target shape (a `visit_some` that decodes via
`deserialize_str` with the same `inside_seq`). -/
def deserialize_option_str (inside_seq : Bool) (s : DeState) :
    Option String × DeState :=
  deserialize_option (deserialize_str inside_seq) s

/-- `AaValueSeqAccess::next_element_seed` (`deser_value.rs` lines
220-245), generic over the element decoding `elem` performed by
`seed.deserialize` with a deserializer whose `inside_seq` is `true`.
`is_first` is the `is_first_element` field, `is_nested` the
`is_nested_seq` field (set from the outer deserializer's `inside_seq`).
Returns no element when: this is a nested sequence past its first
element; or the cursor is at column 1 or end-of-file; or this is the
first element and the peeked byte, with line endings filtered out, is
absent. -/
def next_element {α : Type} (elem : DeState → α × DeState)
    (is_first is_nested : Bool) (s : DeState) : Option α × DeState :=
  if is_nested = true ∧ is_first = false then
    (none, s)
  else if s.pos.column = 1 ∨ s.reached_eof = true then
    (none, s)
  else if is_first = true then
    match peek_byte s with
    | (peeked, s1) =>
      if (peeked.filter (fun b => b ≠ 13 && b ≠ 10)).isNone then
        (none, s1)
      else
        let (v, s2) := elem s1
        (some v, s2)
  else
    let (v, s2) := elem s
    (some v, s2)

/-- The driver loop a serde sequence visitor (such as `Vec`'s) runs over
`next_element_seed`: keep requesting elements until none is produced.
Fueled; each produced element is preceded by consuming at least one
input byte, so fuel exceeding the input length is enough. -/
def read_elements {α : Type} (elem : DeState → α × DeState)
    (is_nested : Bool) (fuel : Nat) (is_first : Bool) (s : DeState) :
    List α × DeState :=
  match fuel with
  | 0 => ([], s)
  | fuel + 1 =>
    match next_element elem is_first is_nested s with
    | (none, s1) => ([], s1)
    | (some v, s1) =>
      let (vs, s2) := read_elements elem is_nested fuel false s1
      (v :: vs, s2)

/-- `AaValueDeserializer::deserialize_seq` (`deser_value.rs` lines
170-177) with string elements, visited by the standard sequence visitor:
the `AaValueSeqAccess` starts with `is_first_element = true` and
`is_nested_seq` equal to the deserializer's `inside_seq`. -/
def deserialize_seq_str (inside_seq : Bool) (s : DeState) :
    List String × DeState :=
  read_elements (deserialize_str true) inside_seq (s.meas + 1) true s

/-- A decoded top-level value in the model: either the unit value (a key
with no value, or a requested unit) or a decoded string. -/
inductive AaValue where
  | unit
  | str (s : String)
deriving Repr, DecidableEq

/-- State of `AaTopMapAccess` (`deser_toplevel.rs` lines 36-39): the
underlying deserializer and the "`no_value`" flag. -/
structure TopState where
  s : DeState
  no_value : Bool
deriving Repr, DecidableEq

/-- The line-skipping loop at the start of `next_key_seed`
(`deser_toplevel.rs` lines 47-60): read bytes until a line ending
(returning `true`) or end-of-file (returning `false`).  Fueled. -/
def skip_line (fuel : Nat) (s : DeState) : Bool × DeState :=
  match fuel with
  | 0 => (false, s)
  | fuel + 1 =>
    match read_byte s with
    | (some byte, s1) =>
      if byte = 13 ∨ byte = 10 then (true, s1)
      else skip_line fuel s1
    | (none, s1) => (false, s1)

/-- `AaTopMapAccess::next_key_seed` (`deser_toplevel.rs` lines 44-95)
with the key requested as a string (keys are always decoded as text):
skip to the next line if mid-line; `fill_buf` with delimiter `:`; on
`FoundDelim` clear the `no_value` flag and consume a single following
space if present; on `FoundEof` with an empty buffer there is no next
key; otherwise set the `no_value` flag.  The decoded buffer is the
key. -/
def next_key (st : TopState) : Option String × TopState :=
  let (go_on, s0) :=
    if st.s.pos.column ≠ 1 then skip_line (st.s.meas + 1) st.s
    else (true, st.s)
  if go_on = false then
    (none, { st with s := s0 })
  else
    match fill_buf [58] s0 with
    | (.FoundDelim _, s1) =>
      match peek_byte s1 with
      | (some 32, s2) =>
        -- Consume the conventional single space after the delimiter.
        let (_, s3) := read_byte s2
        (some (decode_buf_all s3), { s := s3, no_value := false })
      | (_, s2) =>
        (some (decode_buf_all s2), { s := s2, no_value := false })
    | (.FoundEof, s1) =>
      if s1.buf_b.isEmpty then
        (none, { st with s := s1 })
      else
        (some (decode_buf_all s1), { s := s1, no_value := true })
    | (.FoundEol, s1) =>
      (some (decode_buf_all s1), { s := s1, no_value := true })

/-- `AaTopMapAccess::next_value_seed` (`deser_toplevel.rs` lines
97-107) with the value requested as a string-or-unit: if the `no_value`
flag is set the seed deserializes from the unit deserializer (yielding
the unit value); otherwise it deserializes from a fresh
`AaValueDeserializer` (with `inside_seq = false`). -/
def next_value (st : TopState) : AaValue × TopState :=
  if st.no_value then
    (.unit, st)
  else
    let (v, s1) := deserialize_str false st.s
    (.str v, { st with s := s1 })

/-- The driver loop a serde map visitor runs over `next_key_seed` /
`next_value_seed`: alternate keys and values until there is no next
key.  Fueled; each entry consumes at least one input byte. -/
def read_entries (fuel : Nat) (st : TopState) :
    List (String × AaValue) × TopState :=
  match fuel with
  | 0 => ([], st)
  | fuel + 1 =>
    match next_key st with
    | (none, st1) => ([], st1)
    | (some k, st1) =>
      let (v, st2) := next_value st1
      let (rest, st3) := read_entries fuel st2
      ((k, v) :: rest, st3)

/-- `from_bytes` with the target shape "ordered map from string keys to
string-or-unit values": run the record protocol over the whole input. -/
def decode_string_map (bytes : List Nat) : List (String × AaValue) :=
  (read_entries (bytes.length + 1) { s := DeState.mk0 bytes, no_value := false }).1

instance {e a : Type} [DecidableEq e] [DecidableEq a] :
    DecidableEq (Except e a) := fun x y =>
  match x, y with
  | .error e1, .error e2 =>
    if h : e1 = e2 then isTrue (by rw [h]) else isFalse (by simp [h])
  | .ok a1, .ok a2 =>
    if h : a1 = a2 then isTrue (by rw [h]) else isFalse (by simp [h])
  | .error _, .ok _ => isFalse (by simp)
  | .ok _, .error _ => isFalse (by simp)

/-- The column-accounting rule as the specification states it (spec §4.1):
a line-feed whose immediately preceding consumed byte was a
carriage-return changes neither line nor column; any other
carriage-return or line-feed increments the line and resets the column
to 1; a tab advances the column by 8; any other byte with value 0-31 or
127 leaves the position unchanged; every remaining byte advances the
column by 1. -/
def spec_position_step (last b : Nat) (p : Position) : Position :=
  if b = 10 ∧ last = 13 then p
  else if b = 13 ∨ b = 10 then { line := p.line + 1, column := 1 }
  else if b = 9 then { p with column := p.column + 8 }
  else if b ≤ 31 ∨ b = 127 then p
  else { p with column := p.column + 1 }

/-- The bytes a sequence of `read_byte` calls can still yield from state
`s`: the peeked byte (if any) followed by the unread input, or nothing
once end-of-file has been flagged.  `peek_byte` never changes this, and
"consuming a byte" means removing its head. -/
def DeState.toRead (s : DeState) : List Nat :=
  if s.reached_eof then []
  else
    match s.peeked_byte with
    | some b => b :: s.input
    | none => s.input


/-- `fill_buf_go` at its canonical sufficient fuel.  `fill_buf` is
`fill_buf_run` at `started = (column = 1)`, `in_comment = false`,
`seen_nw = false` on the buffer-cleared state. -/
def fill_buf_run (delimiters : List Nat) (started in_comment seen_nw : Bool)
    (s : DeState) : FillBufResult × DeState :=
  fill_buf_go delimiters started in_comment seen_nw (s.meas + 1) s

/-- The body of a physical line: its bytes without the terminating line
ending.  A body is *junk* — transparently skippable between entries —
when it is empty (a blank line), all whitespace with at least one space
or tab, or a comment (optional whitespace, then `#`, then anything). -/
def is_junk_body (body : List Nat) : Bool :=
  body.all (fun b => !(b = 13) && !(b = 10)) &&
  (body.isEmpty ||
    (body.all is_ascii_ws && body.any (fun b => b = 32 || b = 9)) ||
    decide ((body.dropWhile is_ascii_ws).head? = some 35))

/-- A byte allowed in an *entry* line body: printable in the sense of the
scanner's column accounting — a tab or any byte of width 1 (no control
bytes, no DEL, no line endings). -/
def good_byte (b : Nat) : Bool :=
  (b = 9 || decide (32 ≤ b)) && !(b = 127) && !(b = 13) && !(b = 10)

/-- The body of an entry line: well-width bytes, at least one
non-whitespace byte, and the first non-whitespace byte is not `#` (so
the line is not a comment). -/
def is_entry_body (body : List Nat) : Bool :=
  body.all good_byte &&
  body.any (fun b => !is_ascii_ws b) &&
  !(decide ((body.dropWhile is_ascii_ws).head? = some 35))

/-- `L` is `E` with some junk line bodies inserted anywhere. -/
inductive JunkInsertion : List (List Nat) → List (List Nat) → Prop where
  | nil : JunkInsertion [] []
  | keep (b : List Nat) (E L : List (List Nat)) :
      JunkInsertion E L → JunkInsertion (b :: E) (b :: L)
  | junk (j : List Nat) (E L : List (List Nat)) (hj : is_junk_body j = true) :
      JunkInsertion E L → JunkInsertion E (j :: L)

/-- Join line bodies into a byte stream, each body terminated by a
line-feed. -/
def join_lines (L : List (List Nat)) : List Nat :=
  (L.map (fun l => l ++ [10])).flatten


/-! ## Basic facts about the scanner primitives -/

theorem read_byte_buf_b (s : DeState) : ((read_byte s).2).buf_b = s.buf_b := by
  rcases s with ⟨inp, buf, pos, last, pk, eof⟩
  cases eof <;> cases pk <;> cases inp <;>
    simp [read_byte, read_byte_raw]

theorem read_byte_meas_le (s : DeState) : ((read_byte s).2).meas ≤ s.meas := by
  rcases s with ⟨inp, buf, pos, last, pk, eof⟩
  cases eof <;> cases pk <;> cases inp <;>
    simp [read_byte, read_byte_raw, DeState.meas]

theorem read_byte_some_meas (s : DeState) (b : Nat)
    (h : (read_byte s).1 = some b) : ((read_byte s).2).meas < s.meas := by
  rcases s with ⟨inp, buf, pos, last, pk, eof⟩
  cases eof <;> cases pk <;> cases inp <;>
    simp_all [read_byte, read_byte_raw, DeState.meas]

theorem meas_set_buf (s : DeState) (l : List Nat) :
    ({ s with buf_b := l } : DeState).meas = s.meas := rfl

/-- `fill_buf_go` does not depend on the fuel as long as the fuel exceeds
the number of obtainable bytes. -/
theorem fill_buf_go_fuel (d : List Nat) (st : Bool) :
    ∀ (f1 : Nat) (ic sn : Bool) (s : DeState) (f2 : Nat),
    s.meas < f1 → s.meas < f2 →
    fill_buf_go d st ic sn f1 s = fill_buf_go d st ic sn f2 s := by
  intro f1
  induction f1 with
  | zero => intro ic sn s f2 h1 h2; omega
  | succ f1 ih =>
    intro ic sn s f2 h1 h2
    match f2, h2 with
    | f2 + 1, h2 =>
      show fill_buf_go d st ic sn (f1 + 1) s = fill_buf_go d st ic sn (f2 + 1) s
      unfold fill_buf_go
      rcases hrb : read_byte s with ⟨ob, s1⟩
      have hrb1 : (read_byte s).1 = ob := by rw [hrb]
      have hrb2 : (read_byte s).2 = s1 := by rw [hrb]
      rcases ob with _ | b
      · simp
      · have hlt : s1.meas < s.meas := by
          rw [← hrb2]; exact read_byte_some_meas s b hrb1
        simp only
        repeat' split
        all_goals try rfl
        all_goals apply ih
        all_goals first
          | omega
          | (simp only [meas_set_buf]; omega)

/-! ## Claim C2: position accounting in `read_byte` -/

theorem pos_update_eq (last b : Nat) (p : Position) :
    (if last = 13 ∧ b = 10 then p
     else if b = 13 ∨ b = 10 then { line := p.line + 1, column := 1 }
     else if b = 9 then ({ p with column := p.column + 8 } : Position)
     else if b ≤ 31 ∨ b = 127 then p
     else { p with column := p.column + 1 }) = spec_position_step last b p := by
  unfold spec_position_step
  split_ifs <;> first | rfl | tauto

/-- C2: for every byte consumed by `read_byte`, the position is updated
exactly per the specification's column-accounting rule, with "the
immediately preceding consumed byte" being the scanner's `last_byte`
field. -/
theorem read_byte_position_rule (s : DeState) (b : Nat) (s' : DeState)
    (h : read_byte s = (some b, s')) :
    s'.pos = spec_position_step s.last_byte b s.pos := by
  rcases s with ⟨inp, buf, pos, last, pk, eof⟩
  cases eof
  · cases pk with
    | none =>
      cases inp with
      | nil => simp [read_byte, read_byte_raw] at h
      | cons hd tl =>
        simp only [read_byte, read_byte_raw, Bool.false_eq_true, if_false] at h
        obtain ⟨hb, hs⟩ := Prod.mk.injEq .. ▸ h
        cases Option.some.injEq .. ▸ hb
        subst hs
        exact pos_update_eq last b pos
    | some p =>
      simp only [read_byte, Bool.false_eq_true, if_false] at h
      obtain ⟨hb, hs⟩ := Prod.mk.injEq .. ▸ h
      cases Option.some.injEq .. ▸ hb
      subst hs
      exact pos_update_eq last b pos
  · simp [read_byte] at h

/-- Witness for C2 at concrete inputs: an ordinary byte after a CR+LF
pair, and the LF half of a CR+LF pair. -/
theorem read_byte_position_rule_witness :
    ((read_byte (DeState.mk0 [65, 66])).2).pos
        = spec_position_step 0 65 { line := 1, column := 1 } ∧
    ((read_byte { DeState.mk0 [10] with last_byte := 13 }).2).pos
        = spec_position_step 13 10 { line := 1, column := 1 } := by
  constructor
  · exact read_byte_position_rule (DeState.mk0 [65, 66]) 65
      ((read_byte (DeState.mk0 [65, 66])).2) rfl
  · exact read_byte_position_rule { DeState.mk0 [10] with last_byte := 13 } 10
      ((read_byte { DeState.mk0 [10] with last_byte := 13 }).2) rfl

/-! ## Claim C7: totality of Windows-1252 decoding -/

set_option maxRecDepth 4096 in
theorem win1252_byte_isSome : ∀ b < 256, (win1252_byte b).isSome := by decide

set_option maxRecDepth 4096 in
/-- C7: for every byte value 0-255 the Windows-1252 mapping is defined; a
one-byte buffer always decodes to a one-character string; and for every
buffer of byte values the fallible decode succeeds, so the failure
branch (`unwrap`) in `decode_buf` / `decode_buf_owned` is unreachable. -/
theorem win1252_decoding_total :
    (∀ b < 256, (win1252_byte b).isSome
      ∧ (win1252_decode [b]).map String.length = some 1) ∧
    (∀ bytes : List Nat, (∀ b ∈ bytes, b < 256) →
      (win1252_decode bytes).isSome) := by
  constructor
  · decide
  · intro bytes h
    induction bytes with
    | nil => simp [win1252_decode]
    | cons b rest ih =>
      have hb : (win1252_byte b).isSome :=
        win1252_byte_isSome b (h b (by simp))
      have hr : (win1252_decode rest).isSome :=
        ih (fun x hx => h x (by simp [hx]))
      rcases Option.isSome_iff_exists.mp hb with ⟨c, hc⟩
      rcases Option.isSome_iff_exists.mp hr with ⟨str, hstr⟩
      simp [win1252_decode, hc, hstr]

/-- Witness for C7: the euro sign byte `0x80` and a mixed buffer. -/
theorem win1252_decoding_total_witness :
    ((win1252_byte 128).isSome
      ∧ (win1252_decode [128]).map String.length = some 1) ∧
    (win1252_decode [0, 35, 127, 128, 255]).isSome := by
  constructor
  · exact win1252_decoding_total.1 128 (by decide)
  · exact win1252_decoding_total.2 [0, 35, 127, 128, 255] (by decide)

/-! ## Claim C6: parse errors carry the token's start position -/

/-- C6: a boolean, integer, or float decode whose token text fails
textual parsing returns the corresponding `Invalid*` error carrying a
copy of the position taken before any byte of the token was consumed
(the deserializer's position at the start of the call). -/
theorem invalid_scalar_error_position (q : Bool) (s : DeState) :
    (∀ t p, (deserialize_bool q s).1 = .error (.invalidBool t p) → p = s.pos) ∧
    (∀ t p, (deserialize_u8 q s).1 = .error (.invalidInt t p) → p = s.pos) ∧
    (∀ t p, (deserialize_f64 q s).1 = .error (.invalidFloat t p) → p = s.pos) := by
  refine ⟨fun t p h => ?_, fun t p h => ?_, fun t p h => ?_⟩
  · unfold deserialize_bool at h
    rcases hp : rust_parse_bool
        (decode_buf_all (fill_buf_auto q s).2) with _ | b <;>
      simp [hp] at h
    exact h.2.symm
  · unfold deserialize_u8 at h
    rcases hp : rust_parse_u8
        (decode_buf_all (fill_buf_auto q s).2) with _ | n <;>
      simp [hp] at h
    exact h.2.symm
  · unfold deserialize_f64 at h
    rcases hp : rust_parse_f64
        (decode_buf_all (fill_buf_auto q s).2) with _ | v <;>
      simp [hp] at h
    exact h.2.symm

/-- Witness for C6: decoding `"xyz"` as a bool from a mid-line position
(line 1, column 4) reports exactly that position, even though the
cursor afterwards stands at the end of the token; similarly for an
integer and a float. -/
theorem invalid_scalar_error_position_witness :
    (({ line := 1, column := 4 } : Position)
        = ({ DeState.mk0 [120, 121, 122, 10] with
              pos := { line := 1, column := 4 } } : DeState).pos) ∧
    (({ line := 1, column := 1 } : Position) = (DeState.mk0 [51, 48, 48]).pos) ∧
    (({ line := 1, column := 1 } : Position) = (DeState.mk0 [49, 101, 10]).pos) := by
  refine ⟨?_, ?_, ?_⟩
  · exact (invalid_scalar_error_position false
      { DeState.mk0 [120, 121, 122, 10] with
          pos := { line := 1, column := 4 } }).1 "xyz"
      { line := 1, column := 4 } (by decide)
  · exact (invalid_scalar_error_position false (DeState.mk0 [51, 48, 48])).2.1
      "300" { line := 1, column := 1 } (by decide)
  · exact (invalid_scalar_error_position false (DeState.mk0 [49, 101, 10])).2.2
      "1e" { line := 1, column := 1 } (by decide)

/-! ## Claim C9: the token buffer excludes delimiters and line endings -/

theorem fill_buf_go_buf_inv :
    ∀ (fuel : Nat) (d : List Nat) (st ic sn : Bool) (s : DeState)
      (r : FillBufResult) (s' : DeState),
    (∀ b ∈ s.buf_b, b ∉ d ∧ b ≠ 13 ∧ b ≠ 10) →
    fill_buf_go d st ic sn fuel s = (r, s') →
    ∀ b ∈ s'.buf_b, b ∉ d ∧ b ≠ 13 ∧ b ≠ 10 := by
  intro fuel
  induction fuel with
  | zero =>
    intro d st ic sn s r s' hbuf heq
    unfold fill_buf_go at heq
    cases heq
    exact hbuf
  | succ fuel ih =>
    intro d st ic sn s r s' hbuf heq
    unfold fill_buf_go at heq
    rcases hrb : read_byte s with ⟨ob, s1⟩
    rw [hrb] at heq
    have hb1 : s1.buf_b = s.buf_b := by
      have := read_byte_buf_b s; rw [hrb] at this; exact this
    have hbuf1 : ∀ b ∈ s1.buf_b, b ∉ d ∧ b ≠ 13 ∧ b ≠ 10 := by
      rw [hb1]; exact hbuf
    rcases ob with _ | byte
    · simp only at heq
      split at heq
      · cases heq; intro b hb; simp at hb
      · cases heq; exact hbuf1
    · simp only at heq
      split at heq
      · exact ih d st true sn _ r s' (by simp) heq
      · rename_i h1
        split at heq
        · exact ih d st ic sn _ r s' hbuf1 heq
        · rename_i h2
          split at heq
          · rename_i h3
            split at heq
            · exact ih d st false sn _ r s' hbuf1 heq
            · split at heq
              · exact ih d st ic sn _ r s' hbuf1 heq
              · split at heq
                · exact ih d st ic sn _ r s' (by simp) heq
                · cases heq; exact hbuf1
          · rename_i h3
            split at heq
            · cases heq; exact hbuf1
            · rename_i h4
              refine ih d st ic (sn || !is_ascii_ws byte) _ r s' ?_ heq
              intro b hb
              simp only [List.mem_append, List.mem_singleton] at hb
              rcases hb with hb | rfl
              · exact hbuf1 b hb
              · refine ⟨h4, ?_, ?_⟩ <;> intro hcon <;> exact h3 (by simp [hcon])

/-- C9: whenever `fill_buf` returns, the token buffer contains no byte of
the delimiter set and no carriage-return or line-feed: the terminating
delimiter and line endings are never appended to the buffer. -/
theorem fill_buf_excludes_delims_and_eol
    (d : List Nat) (s : DeState) (r : FillBufResult) (s' : DeState)
    (h : fill_buf d s = (r, s')) :
    ∀ b ∈ s'.buf_b, b ∉ d ∧ b ≠ 13 ∧ b ≠ 10 := by
  unfold fill_buf at h
  exact fill_buf_go_buf_inv (s.meas + 1) d _ false false _ r s' (by simp) h

/-- Witness for C9: scanning `"ab:c"` for the delimiter `:` leaves the
buffer holding `a`, which is not the delimiter nor a line ending. -/
theorem fill_buf_excludes_delims_and_eol_witness :
    (97 : Nat) ∉ [58] ∧ (97 : Nat) ≠ 13 ∧ (97 : Nat) ≠ 10 :=
  fill_buf_excludes_delims_and_eol [58] (DeState.mk0 [97, 98, 58, 99])
    (fill_buf [58] (DeState.mk0 [97, 98, 58, 99])).1
    (fill_buf [58] (DeState.mk0 [97, 98, 58, 99])).2
    rfl 97 (by decide)

/-! ## Peeking is transparent to subsequent reads -/

theorem read_byte_after_peek (s : DeState) :
    read_byte (peek_byte s).2 = read_byte s := by
  rcases s with ⟨inp, buf, pos, last, pk, eof⟩
  cases eof <;> cases pk <;> cases inp <;>
    simp [peek_byte, read_byte, read_byte_raw]

theorem read_byte_fst_eq_peek (s : DeState) :
    (read_byte s).1 = (peek_byte s).1 := by
  rcases s with ⟨inp, buf, pos, last, pk, eof⟩
  cases eof <;> cases pk <;> cases inp <;>
    simp [peek_byte, read_byte, read_byte_raw]

theorem read_byte_set_buf (s : DeState) (l : List Nat) :
    read_byte { s with buf_b := l }
      = ((read_byte s).1, { (read_byte s).2 with buf_b := l }) := by
  rcases s with ⟨inp, buf, pos, last, pk, eof⟩
  cases eof <;> cases pk <;> cases inp <;>
    simp [read_byte, read_byte_raw]

theorem peek_byte_pos (s : DeState) : ((peek_byte s).2).pos = s.pos := by
  rcases s with ⟨inp, buf, pos, last, pk, eof⟩
  cases eof <;> cases pk <;> cases inp <;>
    simp [peek_byte, read_byte_raw]

theorem peek_byte_toRead (s : DeState) : ((peek_byte s).2).toRead = s.toRead := by
  rcases s with ⟨inp, buf, pos, last, pk, eof⟩
  cases eof <;> cases pk <;> cases inp <;>
    simp [peek_byte, read_byte_raw, DeState.toRead]

/-- One step of the `fill_buf` loop depends on the state only through its
position and the outcome of `read_byte`. -/
theorem fill_buf_go_states_eq (d : List Nat) (st ic sn : Bool) (f : Nat)
    (s t : DeState) (hpos : s.pos = t.pos) (hread : read_byte s = read_byte t) :
    fill_buf_go d st ic sn (f + 1) s = fill_buf_go d st ic sn (f + 1) t := by
  conv_lhs => rw [fill_buf_go]
  conv_rhs => rw [fill_buf_go]
  rw [hpos, hread]

/-- Peeking does not change the outcome of a subsequent `fill_buf`. -/
theorem fill_buf_after_peek (d : List Nat) (s : DeState) :
    fill_buf d (peek_byte s).2 = fill_buf d s := by
  rcases s with ⟨inp, buf, pos, last, pk, eof⟩
  cases eof
  · cases pk
    · cases inp with
      | nil => rfl
      | cons b rest =>
        have hpk : (peek_byte ⟨b :: rest, buf, pos, last, none, false⟩).2
            = ⟨rest, buf, pos, last, some b, false⟩ := by
          simp [peek_byte, read_byte_raw]
        rw [hpk]
        unfold fill_buf
        have hm : DeState.meas ⟨rest, buf, pos, last, some b, false⟩
            = DeState.meas ⟨b :: rest, buf, pos, last, none, false⟩ := by
          simp [DeState.meas]
        rw [hm]
        exact fill_buf_go_states_eq d _ false false _ _ _ rfl
          (by simp [read_byte, read_byte_raw])
    · rfl
  · rfl

theorem deserialize_str_after_peek (q : Bool) (s : DeState) :
    deserialize_str q (peek_byte s).2 = deserialize_str q s := by
  unfold deserialize_str fill_buf_auto
  rw [fill_buf_after_peek]

/-- When the next byte is a delimiter that is neither a line ending nor
`#`, `fill_buf` finds it at once and leaves the buffer empty. -/
theorem fill_buf_peek_delim (d : List Nat) (s : DeState) (b : Nat)
    (hb : (peek_byte s).1 = some b) (hd : b ∈ d)
    (h13 : b ≠ 13) (h10 : b ≠ 10) (h35 : b ≠ 35) :
    (fill_buf d s).1 = .FoundDelim b ∧ ((fill_buf d s).2).buf_b = [] := by
  have hr : (read_byte s).1 = some b := by rw [read_byte_fst_eq_peek, hb]
  unfold fill_buf
  rw [fill_buf_go, read_byte_set_buf, hr]
  simp [h13, h10, h35, hd]

/-- `deserialize_option` as a case split on the peeked byte. -/
theorem deserialize_option_cases {α : Type} (k : DeState → α × DeState)
    (s : DeState) :
    deserialize_option k s =
      if ((peek_byte s).1 = none ∨ (peek_byte s).1 = some 13
          ∨ (peek_byte s).1 = some 10)
      then (none, (peek_byte s).2)
      else (some (k (peek_byte s).2).1, (k (peek_byte s).2).2) := by
  unfold deserialize_option
  rcases hp : peek_byte s with ⟨ob, s1⟩
  rcases ob with _ | b
  · simp
  · by_cases hb : b = 13 ∨ b = 10
    · rcases hb with rfl | rfl <;> simp
    · have h13 : b ≠ 13 := fun hc => hb (Or.inl hc)
      have h10 : b ≠ 10 := fun hc => hb (Or.inr hc)
      simp only [h13, h10, or_self, if_false, Option.some.injEq,
        false_or, if_neg hb]
      rcases hk : k s1 with ⟨v, s2⟩
      simp [hb, h13, h10, hk]

/-! ## Claim C5: option semantics -/

/-- C5: decoding a value as an option peeks one byte.  If the peeked byte
is absent, a carriage-return, or a line-feed, the result is `none` and
no byte is consumed (the position and the bytes still to be read are
unchanged); for any other peeked byte the result is `some` and both its
content and the final state equal those of the same non-optional decode
run from the same cursor. -/
theorem deserialize_option_semantics (q : Bool) (s : DeState) :
    (((peek_byte s).1 = none ∨ (peek_byte s).1 = some 13
        ∨ (peek_byte s).1 = some 10) →
      deserialize_option_str q s = (none, (peek_byte s).2)
        ∧ ((peek_byte s).2).pos = s.pos
        ∧ ((peek_byte s).2).toRead = s.toRead) ∧
    (∀ b, (peek_byte s).1 = some b → b ≠ 13 → b ≠ 10 →
      deserialize_option_str q s
        = (some (deserialize_str q s).1, (deserialize_str q s).2)) := by
  constructor
  · intro h
    refine ⟨?_, peek_byte_pos s, peek_byte_toRead s⟩
    unfold deserialize_option_str
    rw [deserialize_option_cases, if_pos h]
  · intro b hb h13 h10
    have hcond : ¬((peek_byte s).1 = none ∨ (peek_byte s).1 = some 13
        ∨ (peek_byte s).1 = some 10) := by
      rw [hb]
      rintro (hc | hc | hc)
      · exact absurd hc (by simp)
      · exact h13 (Option.some.inj hc)
      · exact h10 (Option.some.inj hc)
    unfold deserialize_option_str
    rw [deserialize_option_cases, if_neg hcond, deserialize_str_after_peek]

/-- Witness for C5: an option whose next byte is a line-feed is absent
with nothing consumed; an option whose next byte is `H` is present with
the string content of the plain decode. -/
theorem deserialize_option_semantics_witness :
    (deserialize_option_str false (DeState.mk0 [10, 120])
        = (none, (peek_byte (DeState.mk0 [10, 120])).2)
      ∧ ((peek_byte (DeState.mk0 [10, 120])).2).pos = (DeState.mk0 [10, 120]).pos
      ∧ ((peek_byte (DeState.mk0 [10, 120])).2).toRead
          = (DeState.mk0 [10, 120]).toRead) ∧
    deserialize_option_str false (DeState.mk0 [72, 105, 10])
      = (some (deserialize_str false (DeState.mk0 [72, 105, 10])).1,
         (deserialize_str false (DeState.mk0 [72, 105, 10])).2) := by
  constructor
  · exact (deserialize_option_semantics false (DeState.mk0 [10, 120])).1
      (by right; right; rfl)
  · exact (deserialize_option_semantics false (DeState.mk0 [72, 105, 10])).2
      72 rfl (by decide) (by decide)

/-! ## Claim C10: an empty sequence element is a present empty string -/

/-- C10: when a value inside a sequence is requested as an option and the
peeked byte is the `|` element separator, the option decodes as present
containing the empty string; `none` arises exactly when the peeked byte
is absent, a carriage-return, or a line-feed, so an empty element
between `|` separators is a present empty string while an empty value at
the end of a line is absent. -/
theorem option_pipe_is_present_empty (s : DeState) :
    ((peek_byte s).1 = some 124 →
      (deserialize_option_str true s).1 = some "") ∧
    (∀ q : Bool, (deserialize_option_str q s).1 = none ↔
      ((peek_byte s).1 = none ∨ (peek_byte s).1 = some 13
        ∨ (peek_byte s).1 = some 10)) := by
  constructor
  · intro h
    have hcond : ¬((peek_byte s).1 = none ∨ (peek_byte s).1 = some 13
        ∨ (peek_byte s).1 = some 10) := by
      rw [h]
      rintro (hc | hc | hc) <;> simp at hc
    have hbuf := fill_buf_peek_delim [124] s 124 h (by simp)
      (by decide) (by decide) (by decide)
    have hstr : (deserialize_str true s).1 = "" := by
      have he : fill_buf_auto true s = fill_buf [124] s := rfl
      unfold deserialize_str
      rw [he]
      rcases hfb : fill_buf [124] s with ⟨r, s2⟩
      rw [hfb] at hbuf
      simp only at hbuf
      simp [decode_buf_all, hbuf.2, decode_list]
    unfold deserialize_option_str
    rw [deserialize_option_cases, if_neg hcond, deserialize_str_after_peek,
      hstr]
  · intro q
    unfold deserialize_option_str
    rw [deserialize_option_cases]
    by_cases hcond : ((peek_byte s).1 = none ∨ (peek_byte s).1 = some 13
        ∨ (peek_byte s).1 = some 10)
    · rw [if_pos hcond]
      simpa using hcond
    · rw [if_neg hcond]
      simpa using hcond

/-- Witness for C10: in `"|x"` (inside a sequence) the empty element
before the separator decodes as a present empty string. -/
theorem option_pipe_is_present_empty_witness :
    (deserialize_option_str true (DeState.mk0 [124, 120])).1 = some "" :=
  (option_pipe_is_present_empty (DeState.mk0 [124, 120])).1 rfl

/-! ## Claim C4: sequence element access and nested-sequence arity -/

/-- C4: for a sequence requested as an element of an outer sequence
(`is_nested_seq = true`), iteration yields at most one element — once an
element has been produced, every further request returns nothing, no
matter what input (such as further `|` separators) follows.  In general
`next_element_seed` returns no element exactly when the sequence is
nested and one element has already been produced, or the cursor's column
is 1 or end-of-file has been reached, or it is the first requested
element and the peeked next byte is absent, a carriage-return, or a
line-feed. -/
theorem nested_sequence_arity {α : Type} (elem : DeState → α × DeState) :
    (∀ s : DeState, next_element elem false true s = (none, s)) ∧
    (∀ (fuel : Nat) (s : DeState),
      (read_elements elem true fuel true s).1.length ≤ 1) ∧
    (∀ (is_first is_nested : Bool) (s : DeState),
      (next_element elem is_first is_nested s).1 = none ↔
        ((is_nested = true ∧ is_first = false)
          ∨ s.pos.column = 1 ∨ s.reached_eof = true
          ∨ (is_first = true ∧ ((peek_byte s).1 = none
              ∨ (peek_byte s).1 = some 13 ∨ (peek_byte s).1 = some 10)))) := by
  have hstop : ∀ s : DeState, next_element elem false true s = (none, s) := by
    intro s
    unfold next_element
    simp
  refine ⟨hstop, ?_, ?_⟩
  · intro fuel s
    match fuel with
    | 0 => simp [read_elements]
    | fuel + 1 =>
      unfold read_elements
      rcases hne : next_element elem true true s with ⟨ov, s1⟩
      rcases ov with _ | v
      · simp
      · simp only
        match fuel with
        | 0 => simp [read_elements]
        | fuel + 1 =>
          unfold read_elements
          rw [hstop s1]
          simp
  · intro is_first is_nested s
    unfold next_element
    by_cases h1 : is_nested = true ∧ is_first = false
    · simp [h1]
    · rw [if_neg h1]
      by_cases h2 : s.pos.column = 1 ∨ s.reached_eof = true
      · simp [if_pos h2, h2]
        tauto
      · rw [if_neg h2]
        cases is_first with
        | true =>
          simp only [if_pos rfl]
          rcases hp : peek_byte s with ⟨ob, s1⟩
          have hp1 : (peek_byte s).1 = ob := by rw [hp]
          rcases ob with _ | b
          · simp [h1, h2, hp1]
          · by_cases hb : b = 13 ∨ b = 10
            · have : (some b).filter (fun x => x ≠ 13 && x ≠ 10) = none := by
                rcases hb with rfl | rfl <;> simp [Option.filter]
              simp only [this, Option.isNone_none, if_pos]
              simp [h1, h2, hp1]
              tauto
            · have h13 : b ≠ 13 := fun hc => hb (Or.inl hc)
              have h10 : b ≠ 10 := fun hc => hb (Or.inr hc)
              have : (some b).filter (fun x => x ≠ 13 && x ≠ 10) = some b := by
                simp [Option.filter, h13, h10]
              simp only [this]
              rcases he : elem s1 with ⟨v, s2⟩
              simp [h1, h2, hp1, h13, h10]
        | false =>
          have hnest : is_nested = false := by
            cases is_nested
            · rfl
            · exact absurd ⟨rfl, rfl⟩ h1
          rcases he : elem s with ⟨v, s2⟩
          simp [he, h1, h2, hnest]

/-! ## Claim C3: key/value delimiting and the no-value flag -/

theorem peek_byte_buf_b (s : DeState) : ((peek_byte s).2).buf_b = s.buf_b := by
  rcases s with ⟨inp, buf, pos, last, pk, eof⟩
  cases eof <;> cases pk <;> cases inp <;>
    simp [peek_byte, read_byte_raw]

/-- C3: in `next_key`, when `fill_buf` finds the `:` delimiter the
no-value flag is cleared and the immediately following byte is consumed
exactly when it is a single space — any other following byte is left as
part of the value; when `fill_buf` instead ends at a line ending, or at
end-of-file with a non-empty buffer, the key is recorded as having no
value and the subsequent `next_value` produces the unit value.  Input
`"foo\nbar: baz\n"` decodes `foo` as the unit value and `bar` as
`"baz"`. -/
theorem next_key_delimiter_and_no_value :
    (∀ (st : TopState) (d : Nat) (s1 : DeState),
      st.s.pos.column = 1 →
      fill_buf [58] st.s = (.FoundDelim d, s1) →
      next_key st = (some (decode_list s1.buf_b),
        { s := if (peek_byte s1).1 = some 32
               then (read_byte (peek_byte s1).2).2
               else (peek_byte s1).2,
          no_value := false })) ∧
    (∀ (st : TopState) (s1 : DeState),
      st.s.pos.column = 1 →
      (fill_buf [58] st.s = (.FoundEol, s1)
        ∨ (fill_buf [58] st.s = (.FoundEof, s1) ∧ s1.buf_b ≠ [])) →
      next_key st = (some (decode_list s1.buf_b), { s := s1, no_value := true })
        ∧ (next_value { s := s1, no_value := true }).1 = .unit) ∧
    decode_string_map [102, 111, 111, 10, 98, 97, 114, 58, 32, 98, 97, 122, 10]
      = [("foo", .unit), ("bar", .str "baz")] := by
  refine ⟨?_, ?_, by decide⟩
  · intro st d s1 hcol hfb
    unfold next_key
    rw [if_neg (by simp [hcol])]
    simp only
    rw [if_neg (show ¬(true = false) by simp), hfb]
    simp only
    split
    next x s2 heq =>
      have hb2 : s2.buf_b = s1.buf_b := by
        have h := peek_byte_buf_b s1; rw [heq] at h; exact h
      rw [heq]
      simp [decode_buf_all, read_byte_buf_b, hb2]
    next x fst s2 hne heq =>
      have hb2 : s2.buf_b = s1.buf_b := by
        have h := peek_byte_buf_b s1; rw [heq] at h; exact h
      rw [heq]
      rw [if_neg (show ¬((fst, s2).1 = some 32) from fun hc => hne hc)]
      simp [decode_buf_all, hb2]
  · intro st s1 hcol hor
    refine ⟨?_, by simp [next_value]⟩
    unfold next_key
    rw [if_neg (by simp [hcol])]
    simp only
    rw [if_neg (show ¬(true = false) by simp)]
    rcases hor with hfb | ⟨hfb, hne⟩
    · rw [hfb]
      simp [decode_buf_all]
    · rw [hfb]
      simp only
      rw [if_neg (by simp [hne])]
      simp [decode_buf_all]

/-- Witness for C3: key `"a"` followed by `": b"` (delimiter case, with
the single space consumed) on input `"a: b\n"`, and key `"foo"` with no
value on input `"foo\n"`. -/
theorem next_key_delimiter_and_no_value_witness :
    next_key { s := DeState.mk0 [97, 58, 32, 98, 10], no_value := true }
      = (some (decode_list
          ((fill_buf [58] (DeState.mk0 [97, 58, 32, 98, 10])).2).buf_b),
        { s := if (peek_byte
                  (fill_buf [58] (DeState.mk0 [97, 58, 32, 98, 10])).2).1 = some 32
               then (read_byte (peek_byte
                  (fill_buf [58] (DeState.mk0 [97, 58, 32, 98, 10])).2).2).2
               else (peek_byte
                  (fill_buf [58] (DeState.mk0 [97, 58, 32, 98, 10])).2).2,
          no_value := false }) ∧
    next_key { s := DeState.mk0 [102, 111, 111, 10], no_value := false }
      = (some (decode_list
          ((fill_buf [58] (DeState.mk0 [102, 111, 111, 10])).2).buf_b),
        { s := (fill_buf [58] (DeState.mk0 [102, 111, 111, 10])).2,
          no_value := true }) := by
  constructor
  · exact next_key_delimiter_and_no_value.1
      { s := DeState.mk0 [97, 58, 32, 98, 10], no_value := true } 58
      (fill_buf [58] (DeState.mk0 [97, 58, 32, 98, 10])).2 rfl (by decide)
  · exact (next_key_delimiter_and_no_value.2.1
      { s := DeState.mk0 [102, 111, 111, 10], no_value := false }
      (fill_buf [58] (DeState.mk0 [102, 111, 111, 10])).2 rfl
      (Or.inl (by decide))).1

/-! ## Claim C1: when a `#` begins a comment -/

/-- Counterexample to C1 as stated.  In the input `"\x01#b: c\n"` the `#`
is not the first byte of the physical line and follows the
non-whitespace byte `0x01`, so by the claim it should be ordinary data,
making the line the entry `"\x01#b"` / `"c"` — as indeed happens when
the `#` is removed (second equation).  But `0x01` is a control byte of
zero column width, so the scanner's column is still 1 at the `#`; the
code's `prev_column == 1` test therefore fires and the whole line is
discarded as a comment: the decode yields no entries at all. -/
theorem comment_start_condition_counterexample :
    decode_string_map [1, 35, 98, 58, 32, 99, 10] = []
      ∧ decode_string_map [1, 98, 58, 32, 99, 10]
          = [(String.mk [Char.ofNat 1, 'b'], .str "c")] := by
  constructor
  · decide
  · decide

/-- C1 (amended): in `fill_buf`, a `#` byte begins a comment — all bytes
up to the next line ending are discarded and the token buffer is
cleared — if and only if the scanner's column at that byte is 1 (true
at the first byte of the physical line, and also when every preceding
byte of the line has zero column width), or the call began at column 1
and every byte seen so far in that call was whitespace.  A `#` whose
column is not 1 following non-whitespace content is ordinary data, so
input `"bgcolor: #FFFFD6\n"` decodes key `bgcolor` with value
`"#FFFFD6"`. -/
theorem comment_start_condition :
    (∀ (d : List Nat) (st sn : Bool) (f : Nat) (s s1 : DeState),
      read_byte s = (some 35, s1) →
      fill_buf_go d st false sn (f + 1) s =
        if s.pos.column = 1 ∨ (st = true ∧ sn = false)
        then fill_buf_go d st true sn f { s1 with buf_b := [] }
        else if 35 ∈ d then (.FoundDelim 35, s1)
        else fill_buf_go d st false true f
          { s1 with buf_b := s1.buf_b ++ [35] }) ∧
    decode_string_map
        [98, 103, 99, 111, 108, 111, 114, 58, 32, 35, 70, 70, 70, 70, 68, 54, 10]
      = [("bgcolor", .str "#FFFFD6")] := by
  constructor
  · intro d st sn f s s1 hrb
    conv_lhs => rw [fill_buf_go]
    rw [hrb]
    by_cases hc : s.pos.column = 1 ∨ (st = true ∧ sn = false)
    · rw [if_pos hc]
      simp only
      rw [if_pos ⟨by simp, hc⟩]
    · rw [if_neg hc]
      simp only
      rw [if_neg (fun hcon => hc hcon.2)]
      rw [if_neg (by simp)]
      rw [if_neg (by decide)]
      by_cases hd : 35 ∈ d
      · rw [if_pos hd, if_pos hd]
      · rw [if_neg hd, if_neg hd]
        have : (sn || !is_ascii_ws 35) = true := by
          simp [is_ascii_ws]
        rw [this]
  · decide

/-- Witness for C1's amended theorem: the first byte of `"#c\n"` is a
`#` at column 1, entering comment mode with a cleared buffer. -/
theorem comment_start_condition_witness :
    fill_buf_go [58] true false false 4 (DeState.mk0 [35, 99, 10]) =
      if (DeState.mk0 [35, 99, 10]).pos.column = 1 ∨ (true = true ∧ false = false)
      then fill_buf_go [58] true true false 3
        { (read_byte (DeState.mk0 [35, 99, 10])).2 with buf_b := [] }
      else if 35 ∈ [58] then
        (.FoundDelim 35, (read_byte (DeState.mk0 [35, 99, 10])).2)
      else fill_buf_go [58] true false true 3
        { (read_byte (DeState.mk0 [35, 99, 10])).2 with
            buf_b := ((read_byte (DeState.mk0 [35, 99, 10])).2).buf_b ++ [35] } :=
  comment_start_condition.1 [58] true false 3 (DeState.mk0 [35, 99, 10])
    ((read_byte (DeState.mk0 [35, 99, 10])).2) rfl

/-! ## The `fill_buf` loop at canonical fuel -/

theorem fill_buf_eq_run (d : List Nat) (s : DeState) :
    fill_buf d s
      = fill_buf_run d (decide (s.pos.column = 1)) false false
          { s with buf_b := [] } := by
  unfold fill_buf fill_buf_run
  rfl

/-- One unfolding of the `fill_buf` loop, with every recursive call at
its own canonical fuel. -/
theorem fill_buf_run_step (d : List Nat) (st ic sn : Bool) (s : DeState) :
    fill_buf_run d st ic sn s =
      match read_byte s with
      | (some byte, s1) =>
        if byte = 35 ∧ (s.pos.column = 1 ∨ (st = true ∧ sn = false)) then
          fill_buf_run d st true sn { s1 with buf_b := [] }
        else if ic = true ∧ byte ≠ 13 ∧ byte ≠ 10 then
          fill_buf_run d st ic sn s1
        else if byte = 13 ∨ byte = 10 then
          if ic = true then fill_buf_run d st false sn s1
          else if s.pos.column = 1 then fill_buf_run d st ic sn s1
          else if st = true ∧ sn = false then
            fill_buf_run d st ic sn { s1 with buf_b := [] }
          else (.FoundEol, s1)
        else if byte ∈ d then (.FoundDelim byte, s1)
        else fill_buf_run d st ic (sn || !is_ascii_ws byte)
          { s1 with buf_b := s1.buf_b ++ [byte] }
      | (none, s1) =>
        if sn = false then (.FoundEof, { s1 with buf_b := [] })
        else (.FoundEof, s1) := by
  conv_lhs => unfold fill_buf_run; rw [fill_buf_go]
  rcases hrb : read_byte s with ⟨ob, s1⟩
  rcases ob with _ | b
  · rfl
  · have hlt : s1.meas < s.meas := by
      have h1 : (read_byte s).1 = some b := by rw [hrb]
      have h2 := read_byte_some_meas s b h1
      rw [hrb] at h2
      exact h2
    simp only
    unfold fill_buf_run
    repeat' split
    all_goals first
      | rfl
      | (apply fill_buf_go_fuel
         all_goals first
           | omega
           | (simp only [meas_set_buf]; omega))

/-- `read_byte` on a fresh (unpeeked, non-EOF) state with known input. -/
theorem read_byte_fresh (s : DeState) (b : Nat) (rest : List Nat)
    (hpk : s.peeked_byte = none) (heof : s.reached_eof = false)
    (hin : s.input = b :: rest) :
    read_byte s = (some b,
      { s with
          input := rest
          last_byte := b
          pos := (if s.last_byte = 13 ∧ b = 10 then s.pos
            else if b = 13 ∨ b = 10 then { line := s.pos.line + 1, column := 1 }
            else if b = 9 then { s.pos with column := s.pos.column + 8 }
            else if b ≤ 31 ∨ b = 127 then s.pos
            else { s.pos with column := s.pos.column + 1 }) }) := by
  rcases s with ⟨inp, buf, pos, last, pk, eof⟩
  simp only at hpk heof hin
  subst hpk heof hin
  simp [read_byte, read_byte_raw]

/-- Scanning a run of whitespace bytes (no line endings, no delimiters)
in the initial configuration: the bytes are appended to the buffer, the
configuration stays `(started, ¬comment, ¬seen_nw)`, and the column
advances monotonically — strictly past 1 if a space or tab occurs. -/
theorem ws_scan (d : List Nat) :
    ∀ (w : List Nat),
    (∀ b ∈ w, is_ascii_ws b = true ∧ b ≠ 13 ∧ b ≠ 10 ∧ b ∉ d) →
    ∀ (s : DeState) (rest : List Nat),
    s.peeked_byte = none → s.reached_eof = false →
    s.input = w ++ rest → s.last_byte ≠ 13 → 1 ≤ s.pos.column →
    ∃ s' : DeState,
      fill_buf_run d true false false s = fill_buf_run d true false false s'
      ∧ s'.input = rest ∧ s'.peeked_byte = none ∧ s'.reached_eof = false
      ∧ s'.buf_b = s.buf_b ++ w ∧ s'.last_byte ≠ 13
      ∧ s.pos.column ≤ s'.pos.column ∧ 1 ≤ s'.pos.column
      ∧ ((∃ b ∈ w, b = 32 ∨ b = 9) → 2 ≤ s'.pos.column) := by
  intro w
  induction w with
  | nil =>
    intro hw s rest hpk heof hin hlast hcol
    refine ⟨s, rfl, by simpa using hin, hpk, heof, by simp, hlast,
      le_refl _, hcol, ?_⟩
    rintro ⟨b, hb, _⟩
    exact absurd hb (by simp)
  | cons b w' ih =>
    intro hw s rest hpk heof hin hlast hcol
    obtain ⟨hws, h13, h10, hd⟩ := hw b (by simp)
    have hb' : b = 32 ∨ b = 9 ∨ b = 12 := by
      simp [is_ascii_ws] at hws
      omega
    have h35 : b ≠ 35 := by omega
    have hrb := read_byte_fresh s b (w' ++ rest) hpk heof (by simpa using hin)
    rw [fill_buf_run_step, hrb]
    simp only
    rw [if_neg (fun hc => h35 hc.1)]
    rw [if_neg (by simp)]
    rw [if_neg (by tauto)]
    rw [if_neg (by simpa using hd)]
    have hsn : (false || !is_ascii_ws b) = false := by simp [hws]
    rw [hsn]
    set p' := if s.last_byte = 13 ∧ b = 10 then s.pos
       else if b = 13 ∨ b = 10 then { line := s.pos.line + 1, column := 1 }
       else if b = 9 then { s.pos with column := s.pos.column + 8 }
       else if b ≤ 31 ∨ b = 127 then s.pos
       else ({ s.pos with column := s.pos.column + 1 } : Position) with hp'
    have hcol' : s.pos.column ≤ p'.column ∧ 1 ≤ p'.column
        ∧ ((b = 32 ∨ b = 9) → 2 ≤ p'.column) := by
      rw [hp']
      rcases hb' with rfl | rfl | rfl
      · rw [if_neg (by simp), if_neg (by simp), if_neg (by simp),
          if_neg (by simp)]
        simp
        all_goals omega
      · rw [if_neg (by simp), if_neg (by simp), if_pos rfl]
        simp
        all_goals omega
      · rw [if_neg (by simp), if_neg (by simp), if_neg (by simp),
          if_pos (by simp)]
        simp
        all_goals omega
    obtain ⟨s'', heq, hin'', hpk'', heof'', hbuf'', hlast'', hc1'', hc2'', hws''⟩ :=
      ih (fun x hx => hw x (by simp [hx]))
        { s with
            input := w' ++ rest
            last_byte := b
            pos := p'
            buf_b := s.buf_b ++ [b] }
        rest (by simp [hpk]) (by simp [heof]) (by simp) (by simp [h13])
        (by simpa using hcol'.2.1)
    refine ⟨s'', by rw [heq], hin'', hpk'', heof'', ?_, hlast'', ?_, hc2'', ?_⟩
    · rw [hbuf'']
      simp
    · calc s.pos.column ≤ p'.column := hcol'.1
        _ ≤ s''.pos.column := by simpa using hc1''
    · rintro ⟨x, hx, hx32⟩
      rcases List.mem_cons.mp hx with rfl | hx'
      · calc 2 ≤ p'.column := hcol'.2.2 hx32
          _ ≤ s''.pos.column := by simpa using hc1''
      · exact hws'' ⟨x, hx', hx32⟩

/-- Scanning comment text: every byte up to the line ending is discarded
and the buffer stays empty (a `#` inside the comment merely re-enters
comment mode). -/
theorem comment_scan (d : List Nat) :
    ∀ (c : List Nat), (∀ b ∈ c, b ≠ 13 ∧ b ≠ 10) →
    ∀ (s : DeState) (rest : List Nat),
    s.peeked_byte = none → s.reached_eof = false →
    s.input = c ++ rest → s.buf_b = [] → s.last_byte ≠ 13 →
    ∃ s' : DeState,
      fill_buf_run d true true false s = fill_buf_run d true true false s'
      ∧ s'.input = rest ∧ s'.peeked_byte = none ∧ s'.reached_eof = false
      ∧ s'.buf_b = [] ∧ s'.last_byte ≠ 13 := by
  intro c
  induction c with
  | nil =>
    intro hc s rest hpk heof hin hbuf hlast
    exact ⟨s, rfl, by simpa using hin, hpk, heof, hbuf, hlast⟩
  | cons b c' ih =>
    intro hc s rest hpk heof hin hbuf hlast
    obtain ⟨h13, h10⟩ := hc b (by simp)
    have hrb := read_byte_fresh s b (c' ++ rest) hpk heof (by simpa using hin)
    by_cases h35 : b = 35
    · subst h35
      rw [fill_buf_run_step, hrb]
      simp only
      rw [if_pos (by simp)]
      obtain ⟨s'', heq, hrest⟩ :=
        ih (fun x hx => hc x (by simp [hx]))
          { s with
              input := c' ++ rest
              last_byte := 35
              pos := (if s.last_byte = 13 ∧ (35 : Nat) = 10 then s.pos
                else if (35 : Nat) = 13 ∨ (35 : Nat) = 10 then
                  { line := s.pos.line + 1, column := 1 }
                else if (35 : Nat) = 9 then
                  { s.pos with column := s.pos.column + 8 }
                else if (35 : Nat) ≤ 31 ∨ (35 : Nat) = 127 then s.pos
                else { s.pos with column := s.pos.column + 1 })
              buf_b := [] }
          rest (by simp [hpk]) (by simp [heof]) (by simp) (by simp)
          (by simp)
      exact ⟨s'', by rw [← heq, heq], hrest⟩
    · rw [fill_buf_run_step, hrb]
      simp only
      rw [if_neg (fun hcon => h35 hcon.1)]
      rw [if_pos (by simp [h13, h10])]
      obtain ⟨s'', heq, hrest⟩ :=
        ih (fun x hx => hc x (by simp [hx]))
          { s with
              input := c' ++ rest
              last_byte := b
              pos := (if s.last_byte = 13 ∧ b = 10 then s.pos
                else if b = 13 ∨ b = 10 then
                  { line := s.pos.line + 1, column := 1 }
                else if b = 9 then { s.pos with column := s.pos.column + 8 }
                else if b ≤ 31 ∨ b = 127 then s.pos
                else { s.pos with column := s.pos.column + 1 }) }
          rest (by simp [hpk]) (by simp [heof]) (by simp) (by simp [hbuf])
          (by simp [h13])
      exact ⟨s'', by rw [← heq, heq], hrest⟩

/-- Scanning ordinary data bytes past column 1: every byte (no line
endings, no delimiters) is appended to the buffer; comment mode is never
entered because the column stays at least 2 and, when the call started
at line start, non-whitespace has already been seen. -/
theorem data_scan (d : List Nat) (st : Bool) :
    ∀ (w : List Nat), (∀ b ∈ w, b ≠ 13 ∧ b ≠ 10 ∧ b ∉ d) →
    ∀ (sn : Bool), (st = true → sn = true) →
    ∀ (s : DeState) (rest : List Nat),
    s.peeked_byte = none → s.reached_eof = false →
    s.input = w ++ rest → s.last_byte ≠ 13 → 2 ≤ s.pos.column →
    ∃ (sn' : Bool) (s' : DeState),
      fill_buf_run d st false sn s = fill_buf_run d st false sn' s'
      ∧ (st = true → sn' = true)
      ∧ s'.input = rest ∧ s'.peeked_byte = none ∧ s'.reached_eof = false
      ∧ s'.buf_b = s.buf_b ++ w ∧ s'.last_byte ≠ 13 ∧ 2 ≤ s'.pos.column := by
  intro w
  induction w with
  | nil =>
    intro hw sn hsn s rest hpk heof hin hlast hcol
    exact ⟨sn, s, rfl, hsn, by simpa using hin, hpk, heof, by simp, hlast, hcol⟩
  | cons b w' ih =>
    intro hw sn hsn s rest hpk heof hin hlast hcol
    obtain ⟨h13, h10, hd⟩ := hw b (by simp)
    have hrb := read_byte_fresh s b (w' ++ rest) hpk heof (by simpa using hin)
    rw [fill_buf_run_step, hrb]
    simp only
    rw [if_neg (show ¬(b = 35 ∧ (s.pos.column = 1 ∨ (st = true ∧ sn = false)))
      from ?_)]
    rw [if_neg (by simp)]
    rw [if_neg (by tauto)]
    rw [if_neg (by simpa using hd)]
    · set p' := (if s.last_byte = 13 ∧ b = 10 then s.pos
        else if b = 13 ∨ b = 10 then { line := s.pos.line + 1, column := 1 }
        else if b = 9 then { s.pos with column := s.pos.column + 8 }
        else if b ≤ 31 ∨ b = 127 then s.pos
        else ({ s.pos with column := s.pos.column + 1 } : Position)) with hp'
      have hcol' : 2 ≤ p'.column := by
        rw [hp']
        rw [if_neg (by tauto), if_neg (by tauto)]
        by_cases h9 : b = 9
        · rw [if_pos h9]
          simp
          all_goals omega
        · rw [if_neg h9]
          by_cases hctl : b ≤ 31 ∨ b = 127
          · rw [if_pos hctl]
            omega
          · rw [if_neg hctl]
            simp
            omega
      obtain ⟨sn'', s'', heq, hsn'', hin'', hpk'', heof'', hbuf'', hlast'', hc''⟩ :=
        ih (fun x hx => hw x (by simp [hx]))
          (sn || !is_ascii_ws b) (fun hst => by simp [hsn hst])
          { s with
              input := w' ++ rest
              last_byte := b
              pos := p'
              buf_b := s.buf_b ++ [b] }
          rest (by simp [hpk]) (by simp [heof]) (by simp) (by simp [h13])
          (by simpa using hcol')
      refine ⟨sn'', s'', by rw [heq], hsn'', hin'', hpk'', heof'', ?_, hlast'', hc''⟩
      rw [hbuf'']
      simp
    · rintro ⟨h35, hcon | ⟨hst, hsnf⟩⟩
      · omega
      · rw [hsn hst] at hsnf
        simp at hsnf

theorem set_buf_self (s : DeState) (l : List Nat) (h : s.buf_b = l) :
    ({ s with buf_b := l } : DeState) = s := by
  subst h
  rcases s with ⟨inp, buf, pos, last, pk, eof⟩
  rfl

/-- Skipping one junk line: from a line-start state with a cleared
buffer, the `fill_buf` loop in its initial configuration consumes the
whole junk line (body and line-feed) and continues, with the
configuration and cleared buffer restored, at the start of the next
line. -/
theorem junk_skip (d : List Nat) (hwd : ∀ b ∈ d, is_ascii_ws b = false) :
    ∀ (j X : List Nat), is_junk_body j = true →
    ∀ s : DeState,
    s.pos.column = 1 → s.last_byte ≠ 13 → s.peeked_byte = none →
    s.reached_eof = false → s.buf_b = [] → s.input = j ++ 10 :: X →
    ∃ s' : DeState,
      fill_buf_run d true false false s = fill_buf_run d true false false s'
      ∧ s'.input = X ∧ s'.pos.column = 1 ∧ s'.last_byte = 10
      ∧ s'.peeked_byte = none ∧ s'.reached_eof = false ∧ s'.buf_b = [] := by
  intro j X hj s hcol hlast hpk heof hbuf hin
  have hj' : (∀ b ∈ j, b ≠ 13 ∧ b ≠ 10)
      ∧ (j = [] ∨ (j.all is_ascii_ws = true ∧ ∃ b ∈ j, b = 32 ∨ b = 9)
          ∨ (j.dropWhile is_ascii_ws).head? = some 35) := by
    unfold is_junk_body at hj
    simp only [Bool.and_eq_true, List.all_eq_true, Bool.or_eq_true,
      List.isEmpty_eq_true, List.any_eq_true, decide_eq_true_eq] at hj
    constructor
    · intro b hb
      have := hj.1 b hb
      constructor <;> intro hc <;> simp [hc] at this
    · rcases hj.2 with (h | h) | h
      · exact Or.inl h
      · refine Or.inr (Or.inl ⟨List.all_eq_true.mpr h.1, ?_⟩)
        obtain ⟨b, hb, hb'⟩ := h.2
        exact ⟨b, hb, hb'⟩
      · exact Or.inr (Or.inr h)
  rcases hj'.2 with rfl | ⟨hws, hany⟩ | hcmt
  · -- blank line
    have hrb := read_byte_fresh s 10 X hpk heof (by simpa using hin)
    rw [fill_buf_run_step, hrb]
    simp only
    rw [if_neg (by simp)]
    rw [if_neg (by simp)]
    rw [if_pos (by simp)]
    rw [if_neg (by simp)]
    rw [if_pos hcol]
    refine ⟨_, rfl, by simp, ?_, by simp, by simp [hpk], by simp [heof],
      by simp [hbuf]⟩
    simp only
    rw [if_neg (by simp [hlast]), if_pos (by simp)]
  · -- whitespace-only line with at least one space or tab
    obtain ⟨s'', heq, hin'', hpk'', heof'', hbuf'', hlast'', _, _, hcol''⟩ :=
      ws_scan d j
        (fun b hb => ⟨List.all_eq_true.mp hws b hb,
          (hj'.1 b hb).1, (hj'.1 b hb).2, fun hbd => by
            have h1 := hwd b hbd
            have h2 := List.all_eq_true.mp hws b hb
            rw [h1] at h2
            simp at h2⟩)
        s (10 :: X) hpk heof hin hlast (by omega)
    have hc2 : 2 ≤ s''.pos.column := hcol'' hany
    have hrb := read_byte_fresh s'' 10 X hpk'' heof'' hin''
    rw [heq, fill_buf_run_step, hrb]
    simp only
    rw [if_neg (by simp)]
    rw [if_neg (by simp)]
    rw [if_pos (by simp)]
    rw [if_neg (by simp)]
    rw [if_neg (by omega)]
    rw [if_pos (by simp)]
    refine ⟨_, rfl, by simp, ?_, by simp, by simp [hpk''], by simp [heof''],
      by simp⟩
    simp only
    rw [if_neg (by simp [hlast'']), if_pos (by simp)]
  · -- comment line
    obtain ⟨c, hc⟩ : ∃ c, j.dropWhile is_ascii_ws = 35 :: c := by
      rcases hdw : j.dropWhile is_ascii_ws with _ | ⟨b0, c⟩
      · rw [hdw] at hcmt; simp at hcmt
      · rw [hdw] at hcmt
        simp only [List.head?_cons, Option.some.injEq] at hcmt
        exact ⟨c, by rw [hcmt]⟩
    have hsplit : j = j.takeWhile is_ascii_ws ++ 35 :: c := by
      conv_lhs => rw [← List.takeWhile_append_dropWhile (p := is_ascii_ws) (l := j)]
      rw [hc]
    have hpre : ∀ b ∈ j.takeWhile is_ascii_ws, is_ascii_ws b = true :=
      fun b hb => List.mem_takeWhile_imp hb
    have hprej : ∀ b ∈ j.takeWhile is_ascii_ws, b ∈ j := by
      intro b hb
      have hmem : b ∈ List.takeWhile is_ascii_ws j ++ 35 :: c :=
        List.mem_append_left _ hb
      rw [← hsplit] at hmem
      exact hmem
    obtain ⟨s1, heq1, hin1, hpk1, heof1, hbuf1, hlast1, _, hc1, _⟩ :=
      ws_scan d (j.takeWhile is_ascii_ws)
        (fun b hb => ⟨hpre b hb, (hj'.1 b (hprej b hb)).1,
          (hj'.1 b (hprej b hb)).2, fun hbd => by
            have h1 := hwd b hbd
            have h2 := hpre b hb
            rw [h1] at h2
            simp at h2⟩)
        s (35 :: (c ++ 10 :: X)) hpk heof
        (by
          rw [hin]
          conv_lhs => rw [hsplit]
          simp) hlast (by omega)
    have hrb1 := read_byte_fresh s1 35 (c ++ 10 :: X) hpk1 heof1 hin1
    have hcj : ∀ b ∈ c, b ≠ 13 ∧ b ≠ 10 := by
      intro b hb
      refine hj'.1 b ?_
      rw [hsplit]
      exact List.mem_append_right _ (by simp [hb])
    obtain ⟨s2, heq2, hin2, hpk2, heof2, hbuf2, hlast2⟩ :=
      comment_scan d c hcj
        { s1 with
            input := c ++ 10 :: X
            last_byte := 35
            pos := (if s1.last_byte = 13 ∧ (35 : Nat) = 10 then s1.pos
              else if (35 : Nat) = 13 ∨ (35 : Nat) = 10 then
                { line := s1.pos.line + 1, column := 1 }
              else if (35 : Nat) = 9 then
                { s1.pos with column := s1.pos.column + 8 }
              else if (35 : Nat) ≤ 31 ∨ (35 : Nat) = 127 then s1.pos
              else { s1.pos with column := s1.pos.column + 1 })
            buf_b := [] }
        (10 :: X) (by simp [hpk1]) (by simp [heof1]) (by simp) (by simp)
        (by simp)
    have hrb2 := read_byte_fresh s2 10 X hpk2 heof2 hin2
    rw [heq1, fill_buf_run_step, hrb1]
    simp only
    rw [if_pos (by simp)]
    rw [heq2, fill_buf_run_step, hrb2]
    simp only
    rw [if_neg (by simp)]
    rw [if_neg (by simp)]
    rw [if_pos (by simp)]
    rw [if_pos (by simp)]
    refine ⟨_, rfl, by simp, ?_, by simp, by simp [hpk2], by simp [heof2],
      by simp [hbuf2]⟩
    simp only
    rw [if_neg (by simp [hlast2]), if_pos (by simp)]

theorem dropWhile_head_not (p : Nat → Bool) :
    ∀ (l t : List Nat) (b : Nat), l.dropWhile p = b :: t → p b = false := by
  intro l
  induction l with
  | nil => intro t b h; simp [List.dropWhile] at h
  | cons x xs ih =>
    intro t b h
    by_cases hx : p x = true
    · rw [List.dropWhile_cons_of_pos hx] at h
      exact ih t b h
    · rw [List.dropWhile_cons_of_neg hx] at h
      cases h
      simpa using hx

/-- Scanning a key: a run of entry-line bytes free of the `:` delimiter,
from line start, is appended to the buffer in full; if the run contains
a non-whitespace byte, the scan ends with `seen_nw` set and the column
past 1. -/
theorem key_scan :
    ∀ (w : List Nat),
    (∀ b ∈ w, good_byte b = true ∧ b ≠ 58) →
    (w.dropWhile is_ascii_ws).head? ≠ some 35 →
    ∀ (s : DeState) (rest : List Nat),
    s.pos.column = 1 → s.last_byte ≠ 13 → s.peeked_byte = none →
    s.reached_eof = false → s.buf_b = [] → s.input = w ++ rest →
    ∃ (sn' : Bool) (s' : DeState),
      fill_buf_run [58] true false false s = fill_buf_run [58] true false sn' s'
      ∧ s'.input = rest ∧ s'.buf_b = w ∧ s'.peeked_byte = none
      ∧ s'.reached_eof = false ∧ s'.last_byte ≠ 13 ∧ 1 ≤ s'.pos.column
      ∧ ((∃ b ∈ w, is_ascii_ws b = false) → (sn' = true ∧ 2 ≤ s'.pos.column)) := by
  intro w hw hhash s rest hcol hlast hpk heof hbuf hin
  have hwsp : ∀ b ∈ w.takeWhile is_ascii_ws,
      is_ascii_ws b = true ∧ b ≠ 13 ∧ b ≠ 10 ∧ b ∉ [58] := by
    intro b hb
    have hbw : b ∈ w := by
      have hmem : b ∈ List.takeWhile is_ascii_ws w ++ List.dropWhile is_ascii_ws w :=
        List.mem_append_left _ hb
      rwa [List.takeWhile_append_dropWhile] at hmem
    obtain ⟨hg, h58⟩ := hw b hbw
    refine ⟨List.mem_takeWhile_imp hb, ?_, ?_, by simpa using h58⟩
    · intro hc; rw [hc] at hg; simp [good_byte] at hg
    · intro hc; rw [hc] at hg; simp [good_byte] at hg
  rcases hdw : w.dropWhile is_ascii_ws with _ | ⟨cnw, z⟩
  · -- the whole run is whitespace
    have hweq : w.takeWhile is_ascii_ws = w := by
      have h1 := List.takeWhile_append_dropWhile (p := is_ascii_ws) (l := w)
      rw [hdw] at h1
      simpa using h1
    obtain ⟨s1, heq, hin1, hpk1, heof1, hbuf1, hlast1, _, hc1, _⟩ :=
      ws_scan [58] (w.takeWhile is_ascii_ws) hwsp s rest hpk heof
        (by rw [hin, hweq]) hlast (by omega)
    refine ⟨false, s1, heq, hin1, by rw [hbuf1, hbuf, hweq]; simp, hpk1, heof1,
      hlast1, hc1, ?_⟩
    rintro ⟨b, hb, hbws⟩
    have hall := List.dropWhile_eq_nil_iff.mp hdw b hb
    rw [hall] at hbws
    simp at hbws
  · -- whitespace prefix, then a non-whitespace byte, then data
    have hcnww : is_ascii_ws cnw = false := dropWhile_head_not _ w z cnw hdw
    have h35 : cnw ≠ 35 := by
      intro hc
      rw [hdw, hc] at hhash
      simp at hhash
    have hsplit : w = w.takeWhile is_ascii_ws ++ cnw :: z := by
      conv_lhs => rw [← List.takeWhile_append_dropWhile (p := is_ascii_ws) (l := w)]
      rw [hdw]
    have hcnw_mem : cnw ∈ w := by
      rw [hsplit]
      exact List.mem_append_right _ (by simp)
    obtain ⟨hgcnw, h58cnw⟩ := hw cnw hcnw_mem
    have hcnw32 : 32 ≤ cnw ∧ cnw ≠ 127 ∧ cnw ≠ 13 ∧ cnw ≠ 10 := by
      simp [good_byte] at hgcnw
      rcases hgcnw.1 with h9 | h32
      · rw [h9] at hcnww; simp [is_ascii_ws] at hcnww
      · exact ⟨h32, by omega, by omega, by omega⟩
    obtain ⟨s1, heq1, hin1, hpk1, heof1, hbuf1, hlast1, _, hc1, _⟩ :=
      ws_scan [58] (w.takeWhile is_ascii_ws) hwsp s (cnw :: (z ++ rest)) hpk heof
        (by
          rw [hin]
          conv_lhs => rw [hsplit]
          simp) hlast (by omega)
    have hrb1 := read_byte_fresh s1 cnw (z ++ rest) hpk1 heof1 hin1
    rw [heq1, fill_buf_run_step, hrb1]
    simp only
    rw [if_neg (fun hc => h35 hc.1)]
    rw [if_neg (by simp)]
    rw [if_neg (by tauto)]
    rw [if_neg (by simpa using h58cnw)]
    have hsn1 : (false || !is_ascii_ws cnw) = true := by simp [hcnww]
    rw [hsn1]
    have hz : ∀ b ∈ z, b ≠ 13 ∧ b ≠ 10 ∧ b ∉ [58] := by
      intro b hb
      have hbw : b ∈ w := by
        rw [hsplit]
        exact List.mem_append_right _ (by simp [hb])
      obtain ⟨hg, h58⟩ := hw b hbw
      simp [good_byte] at hg
      exact ⟨by omega, by omega, by simpa using h58⟩
    have hposcn : (if s1.last_byte = 13 ∧ cnw = 10 then s1.pos
        else if cnw = 13 ∨ cnw = 10 then { line := s1.pos.line + 1, column := 1 }
        else if cnw = 9 then { s1.pos with column := s1.pos.column + 8 }
        else if cnw ≤ 31 ∨ cnw = 127 then s1.pos
        else ({ s1.pos with column := s1.pos.column + 1 } : Position))
          = { s1.pos with column := s1.pos.column + 1 } := by
      rw [if_neg (by tauto), if_neg (by tauto), if_neg (by omega),
        if_neg (by omega)]
    obtain ⟨sn'', s'', heq2, hsn'', hin'', hpk'', heof'', hbuf'', hlast'', hc''⟩ :=
      data_scan [58] true z hz true (fun _ => rfl)
        { s1 with
            input := z ++ rest
            last_byte := cnw
            pos := { s1.pos with column := s1.pos.column + 1 }
            buf_b := s1.buf_b ++ [cnw] }
        rest (by simp [hpk1]) (by simp [heof1]) (by simp)
        (by simp [hcnw32.2.2.1]) (by simp; omega)
    refine ⟨sn'', s'', ?_, hin'', ?_, hpk'', heof'', hlast'', by omega, ?_⟩
    · rw [← heq2]
      congr 1
      rw [hposcn]
    · rw [hbuf'']
      simp only [List.append_assoc, List.singleton_append]
      rw [hbuf1, hbuf]
      simp only [List.nil_append]
      exact hsplit.symm
    · intro _
      exact ⟨hsn'' rfl, hc''⟩

theorem dropWhile_append_of_ne_nil (p : Nat → Bool) :
    ∀ (a b : List Nat), a.dropWhile p ≠ [] →
    (a ++ b).dropWhile p = a.dropWhile p ++ b := by
  intro a
  induction a with
  | nil => intro b h; simp [List.dropWhile] at h
  | cons x xs ih =>
    intro b h
    by_cases hx : p x = true
    · rw [List.dropWhile_cons_of_pos hx] at h ⊢
      rw [List.cons_append, List.dropWhile_cons_of_pos hx]
      exact ih b h
    · rw [List.cons_append, List.dropWhile_cons_of_neg hx,
        List.dropWhile_cons_of_neg hx]
      simp

/-- `peek_byte` on a fresh (unpeeked, non-EOF) state with known input:
the byte moves from the reader into the peek slot. -/
theorem peek_byte_fresh (s : DeState) (b : Nat) (rest : List Nat)
    (hpk : s.peeked_byte = none) (heof : s.reached_eof = false)
    (hin : s.input = b :: rest) :
    peek_byte s = (some b,
      { s with input := rest, peeked_byte := some b }) := by
  rcases s with ⟨inp, buf, pos, last, pk, eof⟩
  simp only at hpk heof hin
  subst hpk heof hin
  simp [peek_byte, read_byte_raw]

/-- Reading a top-level value (delimiter set empty) mid-line: every byte
up to the line-feed is collected, and the line-feed produces `FoundEol`
with the cursor at the start of the next line. -/
theorem value_fill :
    ∀ (r : List Nat), (∀ b ∈ r, b ≠ 13 ∧ b ≠ 10) →
    ∀ (s : DeState) (X : List Nat),
    2 ≤ s.pos.column → s.last_byte ≠ 13 → s.peeked_byte = none →
    s.reached_eof = false → s.input = r ++ 10 :: X →
    ∃ s' : DeState,
      fill_buf [] s = (.FoundEol, s')
      ∧ s'.input = X ∧ s'.buf_b = r ∧ s'.pos.column = 1 ∧ s'.last_byte = 10
      ∧ s'.peeked_byte = none ∧ s'.reached_eof = false := by
  intro r hr s X hcol hlast hpk heof hin
  rw [fill_buf_eq_run]
  have hdec : decide (s.pos.column = 1) = false := by
    simp
    omega
  rw [hdec]
  obtain ⟨sn'', s'', heq, _, hin'', hpk'', heof'', hbuf'', hlast'', hc''⟩ :=
    data_scan [] false r (fun b hb => ⟨(hr b hb).1, (hr b hb).2, by simp⟩)
      false (by simp)
      { s with buf_b := [] } (10 :: X) (by simp [hpk]) (by simp [heof])
      (by simp [hin]) (by simp [hlast]) (by simpa using hcol)
  have hrb := read_byte_fresh s'' 10 X hpk'' heof'' hin''
  rw [heq, fill_buf_run_step, hrb]
  simp only
  rw [if_neg (by simp)]
  rw [if_neg (by simp)]
  rw [if_pos (by simp)]
  rw [if_neg (by simp)]
  rw [if_neg (by omega)]
  rw [if_neg (by simp)]
  refine ⟨_, rfl, by simp, ?_, ?_, by simp, by simp [hpk''], by simp [heof'']⟩
  · simp only
    rw [hbuf'']
    simp
  · simp only
    rw [if_neg (by simp [hlast''])]
    rw [if_pos (by simp)]

/-- `read_byte` on a state with a pending peeked byte. -/
theorem read_byte_pended (s : DeState) (b : Nat)
    (hpk : s.peeked_byte = some b) (heof : s.reached_eof = false) :
    read_byte s = (some b,
      { s with
          peeked_byte := none
          last_byte := b
          pos := (if s.last_byte = 13 ∧ b = 10 then s.pos
            else if b = 13 ∨ b = 10 then { line := s.pos.line + 1, column := 1 }
            else if b = 9 then { s.pos with column := s.pos.column + 8 }
            else if b ≤ 31 ∨ b = 127 then s.pos
            else { s.pos with column := s.pos.column + 1 }) }) := by
  rcases s with ⟨inp, buf, pos, last, pk, eof⟩
  simp only at hpk heof
  subst hpk heof
  simp [read_byte]

/-- Scanning an entry line's key up to and including the `:` delimiter:
`fill_buf` returns `FoundDelim` with the key in the buffer and the
cursor just past the `:`. -/
theorem key_delim_step (k1 : List Nat)
    (hk1good : ∀ b ∈ k1, good_byte b = true ∧ b ≠ 58)
    (hk1hash : (k1.dropWhile is_ascii_ws).head? ≠ some 35) :
    ∀ (s : DeState) (Y : List Nat),
    s.pos.column = 1 → s.last_byte ≠ 13 → s.peeked_byte = none →
    s.reached_eof = false → s.input = k1 ++ 58 :: Y →
    ∃ s2 : DeState,
      fill_buf [58] s = (.FoundDelim 58, s2)
      ∧ s2.input = Y ∧ s2.buf_b = k1 ∧ s2.peeked_byte = none
      ∧ s2.reached_eof = false ∧ s2.last_byte = 58 ∧ 2 ≤ s2.pos.column := by
  intro s Y hcol hlast hpk heof hin
  obtain ⟨sn', s1, heq, hin1, hbuf1, hpk1, heof1, hlast1, hc1, _⟩ :=
    key_scan k1 hk1good hk1hash
      { s with buf_b := [] } (58 :: Y) (by simp [hcol]) (by simp [hlast])
      (by simp [hpk]) (by simp [heof]) (by simp) (by simp [hin])
  have hrb := read_byte_fresh s1 58 Y hpk1 heof1 hin1
  have hfb : fill_buf [58] s = (.FoundDelim 58,
      { s1 with
          input := Y
          last_byte := 58
          pos := (if s1.last_byte = 13 ∧ (58 : Nat) = 10 then s1.pos
            else if (58 : Nat) = 13 ∨ (58 : Nat) = 10 then
              { line := s1.pos.line + 1, column := 1 }
            else if (58 : Nat) = 9 then { s1.pos with column := s1.pos.column + 8 }
            else if (58 : Nat) ≤ 31 ∨ (58 : Nat) = 127 then s1.pos
            else { s1.pos with column := s1.pos.column + 1 }) }) := by
    rw [fill_buf_eq_run, show decide (s.pos.column = 1) = true by simp [hcol],
      heq, fill_buf_run_step, hrb]
    simp only
    rw [if_neg (by simp)]
    rw [if_neg (by simp)]
    rw [if_neg (by simp)]
    rw [if_pos (by simp)]
  refine ⟨_, hfb, by simp, by simp [hbuf1], by simp [hpk1], by simp [heof1],
    by simp, ?_⟩
  simp only
  rw [if_neg (by simp [hlast1])]
  rw [if_neg (by simp)]
  rw [if_neg (by simp)]
  rw [if_neg (by simp)]
  simp only
  omega

/-- Processing one entry line: the decoded key, the decoded value, and
the no-value flag are functions of the line body alone, and the cursor
ends at the start of the next line. -/
theorem entry_step (e : List Nat) (he : is_entry_body e = true) :
    ∃ (k : String) (v : AaValue) (nvE : Bool),
    ∀ (s : DeState) (X : List Nat) (nv : Bool),
    s.pos.column = 1 → s.last_byte ≠ 13 → s.peeked_byte = none →
    s.reached_eof = false → s.input = e ++ 10 :: X →
    ∃ s' : DeState,
      (next_key { s := s, no_value := nv }).1 = some k
      ∧ next_value (next_key { s := s, no_value := nv }).2
          = (v, { s := s', no_value := nvE })
      ∧ s'.input = X ∧ s'.pos.column = 1 ∧ s'.last_byte = 10
      ∧ s'.peeked_byte = none ∧ s'.reached_eof = false := by
  have he' : (∀ b ∈ e, good_byte b = true) ∧ (∃ b ∈ e, is_ascii_ws b = false)
      ∧ (e.dropWhile is_ascii_ws).head? ≠ some 35 := by
    unfold is_entry_body at he
    simp only [Bool.and_eq_true, List.all_eq_true, List.any_eq_true,
      Bool.not_eq_true', decide_eq_false_iff_not] at he
    exact ⟨he.1.1, he.1.2, he.2⟩
  rcases hdw : e.dropWhile (fun b => !(b = 58)) with _ | ⟨b0, r⟩
  · -- no `:` in the line: a key with no value
    have h58 : ∀ b ∈ e, b ≠ 58 := by
      intro b hb
      have := List.dropWhile_eq_nil_iff.mp hdw b hb
      simpa using this
    refine ⟨decode_list e, .unit, true, ?_⟩
    intro s X nv hcol hlast hpk heof hin
    obtain ⟨sn', s1, heq, hin1, hbuf1, hpk1, heof1, hlast1, hc1, hnws⟩ :=
      key_scan e (fun b hb => ⟨he'.1 b hb, h58 b hb⟩) he'.2.2
        { s with buf_b := [] } (10 :: X) (by simp [hcol]) (by simp [hlast])
        (by simp [hpk]) (by simp [heof]) (by simp) (by simp [hin])
    obtain ⟨hsnT, hc2⟩ := hnws he'.2.1
    subst hsnT
    have hrb := read_byte_fresh s1 10 X hpk1 heof1 hin1
    have hfb : fill_buf [58] s = (.FoundEol,
        { s1 with
            input := X
            last_byte := 10
            pos := (if s1.last_byte = 13 ∧ (10 : Nat) = 10 then s1.pos
              else if (10 : Nat) = 13 ∨ (10 : Nat) = 10 then
                { line := s1.pos.line + 1, column := 1 }
              else if (10 : Nat) = 9 then
                { s1.pos with column := s1.pos.column + 8 }
              else if (10 : Nat) ≤ 31 ∨ (10 : Nat) = 127 then s1.pos
              else { s1.pos with column := s1.pos.column + 1 }) }) := by
      rw [fill_buf_eq_run, show decide (s.pos.column = 1) = true by simp [hcol],
        heq, fill_buf_run_step, hrb]
      simp only
      rw [if_neg (by simp)]
      rw [if_neg (by simp)]
      rw [if_pos (by simp)]
      rw [if_neg (by simp)]
      rw [if_neg (by omega)]
      rw [if_neg (by simp)]
    have hnk : next_key { s := s, no_value := nv }
        = (some (decode_list e),
          { s := { s1 with
              input := X
              last_byte := 10
              pos := (if s1.last_byte = 13 ∧ (10 : Nat) = 10 then s1.pos
                else if (10 : Nat) = 13 ∨ (10 : Nat) = 10 then
                  { line := s1.pos.line + 1, column := 1 }
                else if (10 : Nat) = 9 then
                  { s1.pos with column := s1.pos.column + 8 }
                else if (10 : Nat) ≤ 31 ∨ (10 : Nat) = 127 then s1.pos
                else { s1.pos with column := s1.pos.column + 1 }) },
            no_value := true }) := by
      unfold next_key
      rw [if_neg (by simp [hcol])]
      simp only
      rw [if_neg (show ¬(true = false) by simp), hfb]
      simp [decode_buf_all, hbuf1]
    refine ⟨_, by rw [hnk], by rw [hnk]; rfl, by simp, ?_, by simp,
      by simp [hpk1], by simp [heof1]⟩
    simp only
    rw [if_neg (by simp [hlast1])]
    rw [if_pos (by simp)]
  · -- the line has a `:`: key, optional space, value
    have hb0 : b0 = 58 := by
      have h := dropWhile_head_not _ e r b0 hdw
      simpa using h
    subst hb0
    have hsplit : e = e.takeWhile (fun b => !(b = 58)) ++ 58 :: r := by
      conv_lhs => rw [← List.takeWhile_append_dropWhile
        (p := fun b => !(b = 58)) (l := e)]
      rw [hdw]
    have hk1good : ∀ b ∈ e.takeWhile (fun b => !(b = 58)),
        good_byte b = true ∧ b ≠ 58 := by
      intro b hb
      have hbe : b ∈ e := by
        have hmem := List.mem_append_left (58 :: r) hb
        rwa [← hsplit] at hmem
      refine ⟨he'.1 b hbe, ?_⟩
      have h := List.mem_takeWhile_imp hb
      simpa using h
    have hrgood : ∀ b ∈ r, b ≠ 13 ∧ b ≠ 10 := by
      intro b hb
      have hbe : b ∈ e := by
        have hmem := List.mem_append_right
          (e.takeWhile (fun b => !(b = 58)))
          (show b ∈ 58 :: r by simp [hb])
        rwa [← hsplit] at hmem
      have hg := he'.1 b hbe
      simp [good_byte] at hg
      exact ⟨by omega, by omega⟩
    have hk1hash : ((e.takeWhile (fun b => !(b = 58))).dropWhile
        is_ascii_ws).head? ≠ some 35 := by
      by_cases hnil : (e.takeWhile (fun b => !(b = 58))).dropWhile
          is_ascii_ws = []
      · rw [hnil]; simp
      · intro hc
        apply he'.2.2
        have happ := dropWhile_append_of_ne_nil is_ascii_ws
          (e.takeWhile (fun b => !(b = 58))) (58 :: r) hnil
        conv_lhs => rw [hsplit]
        rw [happ]
        rcases hl : (e.takeWhile (fun b => !(b = 58))).dropWhile is_ascii_ws
          with _ | ⟨c, t⟩
        · exact absurd hl hnil
        · rw [hl] at hc
          simp only [List.head?_cons, Option.some.injEq] at hc
          rw [hl]
          simp [hc]
    rcases r with _ | ⟨c, r2⟩
    · -- empty value (`:` at end of line): value is the empty string
      refine ⟨decode_list (e.takeWhile (fun b => !(b = 58))),
        .str (decode_list []), false, ?_⟩
      intro s X nv hcol hlast hpk heof hin
      obtain ⟨s2, hfb, hin2, hbuf2, hpk2, heof2, hlast2, hc2⟩ :=
        key_delim_step (e.takeWhile (fun b => !(b = 58))) hk1good hk1hash
          s (10 :: X) hcol hlast hpk heof
          (by
            rw [hin]
            conv_lhs => rw [hsplit]
            simp)
      have hpeek := peek_byte_fresh s2 10 X hpk2 heof2 hin2
      obtain ⟨s4, hval, hin4, hbuf4, hc4, hlast4, hpk4, heof4⟩ :=
        value_fill [] (by simp) s2 X (by omega) (by simp [hlast2]) hpk2 heof2
          (by simpa using hin2)
      have hvalp : fill_buf [] { s2 with input := X, peeked_byte := some 10 }
          = (.FoundEol, s4) := by
        have h := fill_buf_after_peek [] s2
        rw [hpeek] at h
        simp only at h
        rw [h, hval]
      have hnk : next_key { s := s, no_value := nv }
          = (some (decode_list (e.takeWhile (fun b => !(b = 58)))),
            { s := { s2 with input := X, peeked_byte := some 10 },
              no_value := false }) := by
        unfold next_key
        rw [if_neg (by simp [hcol])]
        simp only
        rw [if_neg (show ¬(true = false) by simp), hfb]
        simp only
        split
        next x s2m heq =>
          rw [hpeek] at heq
          simp at heq
        next x fst s2m hne heq =>
          rw [hpeek] at heq
          obtain ⟨h1, h2⟩ := Prod.mk.injEq .. ▸ heq
          subst h2
          simp [decode_buf_all, hbuf2]
      refine ⟨s4, by rw [hnk], ?_, hin4, hc4, hlast4, hpk4, heof4⟩
      rw [hnk]
      unfold next_value
      rw [if_neg (by simp)]
      simp only
      unfold deserialize_str
      have hauto : fill_buf_auto false { s2 with input := X, peeked_byte := some 10 }
          = fill_buf [] { s2 with input := X, peeked_byte := some 10 } := rfl
      rw [hauto, hvalp]
      simp [decode_buf_all, hbuf4]
    · -- non-empty remainder after `:`
      by_cases hc32 : c = 32
      · -- a single space after the delimiter: consumed, value is `r2`
        subst hc32
        have hr2good : ∀ b ∈ r2, b ≠ 13 ∧ b ≠ 10 :=
          fun b hb => hrgood b (by simp [hb])
        refine ⟨decode_list (e.takeWhile (fun b => !(b = 58))),
          .str (decode_list r2), false, ?_⟩
        intro s X nv hcol hlast hpk heof hin
        obtain ⟨s2, hfb, hin2, hbuf2, hpk2, heof2, hlast2, hc2⟩ :=
          key_delim_step (e.takeWhile (fun b => !(b = 58))) hk1good hk1hash
            s (32 :: (r2 ++ 10 :: X)) hcol hlast hpk heof
            (by
              rw [hin]
              conv_lhs => rw [hsplit]
              simp)
        have hpeek := peek_byte_fresh s2 32 (r2 ++ 10 :: X) hpk2 heof2 hin2
        have hrd := read_byte_pended
          { s2 with input := r2 ++ 10 :: X, peeked_byte := some 32 } 32
          (by simp) (by simp [heof2])
        have hc3 : 2 ≤ ((read_byte { s2 with input := r2 ++ 10 :: X, peeked_byte := some 32 }).2).pos.column := by
          rw [hrd]
          simp only
          rw [if_neg (by simp), if_neg (by simp), if_neg (by simp),
            if_neg (by simp)]
          simp only
          omega
        obtain ⟨s4, hval, hin4, hbuf4, hc4, hlast4, hpk4, heof4⟩ :=
          value_fill r2 hr2good
            ((read_byte { s2 with input := r2 ++ 10 :: X, peeked_byte := some 32 }).2) X hc3
            (by rw [hrd]; simp) (by rw [hrd]) (by rw [hrd]; simp [heof2])
            (by rw [hrd])
        have hnk : next_key { s := s, no_value := nv }
            = (some (decode_list (e.takeWhile (fun b => !(b = 58)))),
              { s := (read_byte { s2 with input := r2 ++ 10 :: X, peeked_byte := some 32 }).2,
                no_value := false }) := by
          unfold next_key
          rw [if_neg (by simp [hcol])]
          simp only
          rw [if_neg (show ¬(true = false) by simp), hfb]
          simp only
          split
          next x s2m heq =>
            rw [hpeek] at heq
            obtain ⟨h1, h2⟩ := Prod.mk.injEq .. ▸ heq
            subst h2
            simp [decode_buf_all, read_byte_buf_b, hbuf2]
          next x fst s2m hne heq =>
            rw [hpeek] at heq
            obtain ⟨h1, h2⟩ := Prod.mk.injEq .. ▸ heq
            exact absurd h1.symm hne
        refine ⟨s4, by rw [hnk], ?_, hin4, hc4, hlast4, hpk4, heof4⟩
        rw [hnk]
        unfold next_value
        rw [if_neg (by simp)]
        simp only
        unfold deserialize_str
        have hauto : fill_buf_auto false
            ((read_byte { s2 with input := r2 ++ 10 :: X, peeked_byte := some 32 }).2)
            = fill_buf []
              ((read_byte { s2 with input := r2 ++ 10 :: X, peeked_byte := some 32 }).2) := rfl
        rw [hauto, hval]
        simp [decode_buf_all, hbuf4]
      · -- any other byte after the delimiter: left as part of the value
        have hrgood' : ∀ b ∈ c :: r2, b ≠ 13 ∧ b ≠ 10 := hrgood
        refine ⟨decode_list (e.takeWhile (fun b => !(b = 58))),
          .str (decode_list (c :: r2)), false, ?_⟩
        intro s X nv hcol hlast hpk heof hin
        obtain ⟨s2, hfb, hin2, hbuf2, hpk2, heof2, hlast2, hc2⟩ :=
          key_delim_step (e.takeWhile (fun b => !(b = 58))) hk1good hk1hash
            s (c :: (r2 ++ 10 :: X)) hcol hlast hpk heof
            (by
              rw [hin]
              conv_lhs => rw [hsplit]
              simp)
        have hpeek := peek_byte_fresh s2 c (r2 ++ 10 :: X) hpk2 heof2 hin2
        obtain ⟨s4, hval, hin4, hbuf4, hc4, hlast4, hpk4, heof4⟩ :=
          value_fill (c :: r2) hrgood' s2 X (by omega) (by simp [hlast2])
            hpk2 heof2 (by simpa using hin2)
        have hvalp : fill_buf [] { s2 with input := r2 ++ 10 :: X, peeked_byte := some c } = (.FoundEol, s4) := by
          have h := fill_buf_after_peek [] s2
          rw [hpeek] at h
          simp only at h
          rw [h, hval]
        have hnk : next_key { s := s, no_value := nv }
            = (some (decode_list (e.takeWhile (fun b => !(b = 58)))),
              { s := { s2 with input := r2 ++ 10 :: X, peeked_byte := some c },
                no_value := false }) := by
          unfold next_key
          rw [if_neg (by simp [hcol])]
          simp only
          rw [if_neg (show ¬(true = false) by simp), hfb]
          simp only
          split
          next x s2m heq =>
            rw [hpeek] at heq
            obtain ⟨h1, h2⟩ := Prod.mk.injEq .. ▸ heq
            exact absurd (Option.some.inj h1.symm).symm hc32
          next x fst s2m hne heq =>
            rw [hpeek] at heq
            obtain ⟨h1, h2⟩ := Prod.mk.injEq .. ▸ heq
            subst h2
            simp [decode_buf_all, hbuf2]
        refine ⟨s4, by rw [hnk], ?_, hin4, hc4, hlast4, hpk4, heof4⟩
        rw [hnk]
        unfold next_value
        rw [if_neg (by simp)]
        simp only
        unfold deserialize_str
        have hauto : fill_buf_auto false
            { s2 with input := r2 ++ 10 :: X, peeked_byte := some c }
            = fill_buf []
              { s2 with input := r2 ++ 10 :: X, peeked_byte := some c } := rfl
        rw [hauto, hvalp]
        simp [decode_buf_all, hbuf4]

theorem read_byte_empty (s : DeState) (hpk : s.peeked_byte = none)
    (heof : s.reached_eof = false) (hin : s.input = []) :
    read_byte s = (none, { s with reached_eof := true, last_byte := 0 }) := by
  rcases s with ⟨inp, buf, pos, last, pk, eof⟩
  simp only at hpk heof hin
  subst hpk heof hin
  simp [read_byte, read_byte_raw]

/-- With no input left, `next_key` reports the end of the entries. -/
theorem next_key_empty (s : DeState) (nv : Bool) (hcol : s.pos.column = 1)
    (hpk : s.peeked_byte = none) (heof : s.reached_eof = false)
    (hin : s.input = []) :
    (next_key { s := s, no_value := nv }).1 = none := by
  have hrb := read_byte_empty { s with buf_b := ([] : List Nat) }
    (by simp [hpk]) (by simp [heof]) (by simp [hin])
  have hfb : fill_buf [58] s = (.FoundEof,
      { s with buf_b := [], reached_eof := true, last_byte := 0 }) := by
    rw [fill_buf_eq_run, show decide (s.pos.column = 1) = true by simp [hcol]]
    rw [fill_buf_run_step, hrb]
    simp
  unfold next_key
  rw [if_neg (by simp [hcol])]
  simp only
  rw [if_neg (show ¬(true = false) by simp), hfb]
  simp

/-- `next_key` depends on the state only through its column-1 status and
the outcome of `fill_buf`. -/
theorem next_key_eq_of (s t : DeState) (nv : Bool)
    (hcols : s.pos.column = 1) (hcolt : t.pos.column = 1)
    (hfb : fill_buf [58] s = fill_buf [58] t) :
    next_key { s := s, no_value := nv } = next_key { s := t, no_value := nv } := by
  unfold next_key
  rw [if_neg (by simp [hcols]), if_neg (by simp [hcolt])]
  simp only
  rw [if_neg (show ¬(true = false) by simp),
    if_neg (show ¬(true = false) by simp), hfb]

/-- The decoded entries depend on the access state only through
`next_key`. -/
theorem read_entries_eq_of (st1 st2 : TopState)
    (h : next_key st1 = next_key st2) :
    ∀ f : Nat, (read_entries f st1).1 = (read_entries f st2).1 := by
  intro f
  match f with
  | 0 => rfl
  | f + 1 =>
    unfold read_entries
    rw [h]

theorem join_lines_nil : join_lines [] = [] := rfl

theorem join_lines_cons (l : List Nat) (L : List (List Nat)) :
    join_lines (l :: L) = l ++ 10 :: join_lines L := by
  simp [join_lines]

theorem JunkInsertion.length_le {E L : List (List Nat)}
    (h : JunkInsertion E L) : E.length ≤ L.length := by
  induction h with
  | nil => simp
  | keep b E L _ ih => simpa using ih
  | junk j E L _ _ ih => simp; omega

theorem length_le_join_lines : ∀ L : List (List Nat),
    L.length ≤ (join_lines L).length := by
  intro L
  induction L with
  | nil => simp [join_lines]
  | cons l L ih =>
    rw [join_lines_cons]
    simp
    omega

/-- Inserting junk lines among entry lines does not change the decoded
entry list, for any sufficient fuel on either side. -/
theorem read_entries_insertion :
    ∀ (E L : List (List Nat)), JunkInsertion E L →
    (∀ l ∈ E, is_entry_body l = true) →
    ∀ (f1 f2 : Nat) (s t : DeState) (nv : Bool),
    E.length < f1 → E.length < f2 →
    s.pos.column = 1 → s.last_byte ≠ 13 → s.peeked_byte = none →
    s.reached_eof = false → s.input = join_lines L →
    t.pos.column = 1 → t.last_byte ≠ 13 → t.peeked_byte = none →
    t.reached_eof = false → t.input = join_lines E →
    (read_entries f1 { s := s, no_value := nv }).1
      = (read_entries f2 { s := t, no_value := nv }).1 := by
  intro E L hJI
  induction hJI with
  | nil =>
    intro hE f1 f2 s t nv hf1 hf2 hcols hlasts hpks heofs hins
      hcolt hlastt hpkt heoft hint
    match f1, f2, hf1, hf2 with
    | f1 + 1, f2 + 1, _, _ =>
      unfold read_entries
      rcases hnk1 : next_key { s := s, no_value := nv } with ⟨ok1, st1⟩
      rcases hnk2 : next_key { s := t, no_value := nv } with ⟨ok2, st2⟩
      have h1 : ok1 = none := by
        have := next_key_empty s nv hcols hpks heofs (by simpa using hins)
        rw [hnk1] at this
        exact this
      have h2 : ok2 = none := by
        have := next_key_empty t nv hcolt hpkt heoft (by simpa using hint)
        rw [hnk2] at this
        exact this
      subst h1 h2
      rfl
  | junk j E L hj _ ih =>
    intro hE f1 f2 s t nv hf1 hf2 hcols hlasts hpks heofs hins
      hcolt hlastt hpkt heoft hint
    rw [join_lines_cons] at hins
    obtain ⟨s'', heq, hin'', hcol'', hlast'', hpk'', heof'', hbuf''⟩ :=
      junk_skip [58] (by intro b hb; simp at hb; subst hb; rfl) j
        (join_lines L) hj { s with buf_b := [] }
        (by simp [hcols]) (by simp [hlasts]) (by simp [hpks])
        (by simp [heofs]) (by simp) (by simp [hins])
    have hfbeq : fill_buf [58] s = fill_buf [58] s'' := by
      rw [fill_buf_eq_run, show decide (s.pos.column = 1) = true by simp [hcols],
        heq, fill_buf_eq_run,
        show decide (s''.pos.column = 1) = true by simp [hcol''],
        set_buf_self s'' [] hbuf'']
    have hnkeq := next_key_eq_of s s'' nv hcols hcol'' hfbeq
    rw [read_entries_eq_of _ _ hnkeq f1]
    exact ih hE f1 f2 s'' t nv hf1 hf2 hcol'' (by simp [hlast'']) hpk''
      heof'' hin'' hcolt hlastt hpkt heoft hint
  | keep b E L _ ih =>
    intro hE f1 f2 s t nv hf1 hf2 hcols hlasts hpks heofs hins
      hcolt hlastt hpkt heoft hint
    obtain ⟨k, v, nvE, hstep⟩ := entry_step b (hE b (by simp))
    rw [join_lines_cons] at hins hint
    obtain ⟨s', hks, hvs, hins', hcols', hlasts', hpks', heofs'⟩ :=
      hstep s (join_lines L) nv hcols hlasts hpks heofs hins
    obtain ⟨t', hkt, hvt, hint', hcolt', hlastt', hpkt', heoft'⟩ :=
      hstep t (join_lines E) nv hcolt hlastt hpkt heoft hint
    match f1, f2, hf1, hf2 with
    | f1 + 1, f2 + 1, hf1, hf2 =>
      unfold read_entries
      rcases hnk1 : next_key { s := s, no_value := nv } with ⟨ok1, st1⟩
      rcases hnk2 : next_key { s := t, no_value := nv } with ⟨ok2, st2⟩
      rw [hnk1] at hks hvs
      rw [hnk2] at hkt hvt
      simp only at hks hvs hkt hvt
      subst hks hkt
      simp only
      rw [hvs, hvt]
      simp only
      have hrec := ih (fun l hl => hE l (by simp [hl])) f1 f2 s' t' nvE
        (by simpa using hf1) (by simpa using hf2)
        hcols' (by simp [hlasts']) hpks' heofs' hins'
        hcolt' (by simp [hlastt']) hpkt' heoft' hint'
      rcases hr1 : read_entries f1 { s := s', no_value := nvE } with ⟨es1, sx1⟩
      rcases hr2 : read_entries f2 { s := t', no_value := nvE } with ⟨es2, sx2⟩
      rw [hr1, hr2] at hrec
      simp only at hrec ⊢
      rw [hrec]

/-! ## Claim C8: invariance under inserted blank, whitespace, comment lines -/

/-- Counterexample to C8 as stated.  A line consisting of a single
form-feed byte (`0x0C`) is a whitespace-only line (form feed is ASCII
whitespace, as the scanner's own `is_ascii_whitespace` test confirms),
yet inserting it before `"foo: x"` changes the decoded result: the form
feed has zero column width, so the line ending that follows it is taken
at column 1 (the "empty line" branch, which does not clear the buffer)
and the form feed byte leaks into the next key, which decodes as
`"\x0Cfoo"` instead of `"foo"`. -/
theorem blank_line_invariance_counterexample :
    is_ascii_ws 12 = true
      ∧ decode_string_map (join_lines [[12], [102, 111, 111, 58, 32, 120]])
          ≠ decode_string_map (join_lines [[102, 111, 111, 58, 32, 120]]) := by
  constructor
  · decide
  · decide

/-- C8 (amended): for an input made of line-feed-terminated entry lines,
inserting any number of blank lines, comment lines, or whitespace-only
lines containing at least one space or tab (a whitespace-only line made
solely of form feeds is not transparent — see the counterexample)
anywhere between the entry lines yields a decoded result equal to that
of the original input, for the map-of-strings target shape. -/
theorem blank_line_invariance :
    ∀ (E L1 L2 : List (List Nat)),
    (∀ l ∈ E, is_entry_body l = true) →
    JunkInsertion E L1 → JunkInsertion E L2 →
    decode_string_map (join_lines L1) = decode_string_map (join_lines L2) := by
  intro E L1 L2 hE h1 h2
  unfold decode_string_map
  have hside : ∀ L : List (List Nat), JunkInsertion E L →
      (read_entries ((join_lines L).length + 1)
        { s := DeState.mk0 (join_lines L), no_value := false }).1
      = (read_entries (E.length + 1)
        { s := DeState.mk0 (join_lines E), no_value := false }).1 := by
    intro L hL
    refine read_entries_insertion E L hL hE _ _ _ _ false ?_ (by omega)
      rfl (by simp [DeState.mk0]) rfl rfl rfl
      rfl (by simp [DeState.mk0]) rfl rfl rfl
    have ha := hL.length_le
    have hb := length_le_join_lines L
    omega
  rw [hside L1 h1, hside L2 h2]

/-- Witness for C8's amended theorem: inserting a comment line and a
whitespace-only line around the entry `"a: b"` leaves the decode
unchanged. -/
theorem blank_line_invariance_witness :
    decode_string_map (join_lines [[97, 58, 32, 98]])
      = decode_string_map (join_lines [[35, 99], [97, 58, 32, 98], [32]]) :=
  blank_line_invariance [[97, 58, 32, 98]] [[97, 58, 32, 98]]
    [[35, 99], [97, 58, 32, 98], [32]]
    (by intro l hl; simp at hl; subst hl; decide)
    (JunkInsertion.keep _ _ _ JunkInsertion.nil)
    (JunkInsertion.junk [35, 99] _ _ (by decide)
      (JunkInsertion.keep _ _ _
        (JunkInsertion.junk [32] _ _ (by decide) JunkInsertion.nil)))
